import Mathlib

/-!
Verification development for a Sudoku generator/solver.

The embedding models: the board topology (`Sudoku.Board.py` / `board.py`),
the brute-force backtracking solver (`Sudoku/Solver.py`), the Norvig-style
propagation solver (`Sudoku/norvig_solver.py`), and the two reduction passes
of the generator (`Sudoku/Generator.py` / `generator.py`).

A board's values are modelled as a function from (row, col) to the cell
value, with `0` denoting an empty cell.
-/

namespace Sudoku

/-- `side_length = rank * rank` (e.g. 9 for rank 3). -/
def side (rank : Nat) : Nat := rank * rank

/-- `size = side_length * side_length`, the number of cells. -/
def size (rank : Nat) : Nat := side rank * side rank

/-- Board values: the current value at (row, col); `0` means empty. -/
abbrev Vals := Nat → Nat → Nat

/-- `tile = rank * (row // rank) + (col // rank)` as in both board variants. -/
def tileOf (rank r c : Nat) : Nat := rank * (r / rank) + c / rank

/-- All cell positions in row-major order (as `Board.cells` is built). -/
def rowMajor (rank : Nat) : List (Nat × Nat) :=
  ((List.range (side rank)).map (fun r =>
    (List.range (side rank)).map (fun c => (r, c)))).flatten

/-- Whether two positions share a row, a column, or a tile. -/
def sameUnitB (rank : Nat) (p q : Nat × Nat) : Bool :=
  p.1 == q.1 || p.2 == q.2 ||
    (tileOf rank p.1 p.2 == tileOf rank q.1 q.2)

/-- `Board.get_context`: the cells sharing a row, column or tile with `p`,
excluding `p` itself.  The source computes a set of cells; here it is the
list of the distinct positions of that set, in row-major order. -/
def context (rank : Nat) (p : Nat × Nat) : List (Nat × Nat) :=
  (rowMajor rank).filter (fun q => q != p && sameUnitB rank p q)

/-- `Board.get_possibles`: values in `1..side` not used by any context cell
(`get_excluded` is the set of nonzero context values; a value `v ≥ 1` is
excluded exactly when some context cell holds it). -/
def possibles (rank : Nat) (vals : Vals) (p : Nat × Nat) : List Nat :=
  (List.range' 1 (side rank)).filter
    (fun v => !((context rank p).any (fun q => vals q.1 q.2 == v)))

/-- `Board.get_density`: the number of filled context cells divided by the
context size.  The source uses Python's floor division `//` on two ints. -/
def getDensity (rank : Nat) (vals : Vals) (p : Nat × Nat) : Nat :=
  ((context rank p).filter (fun q => vals q.1 q.2 != 0)).length /
    (context rank p).length

/-- The row of values in row `r` (left to right). -/
def rowVals (rank : Nat) (vals : Vals) (r : Nat) : List Nat :=
  (List.range (side rank)).map (fun c => vals r c)

/-- The column of values in column `c` (top to bottom). -/
def colVals (rank : Nat) (vals : Vals) (c : Nat) : List Nat :=
  (List.range (side rank)).map (fun r => vals r c)

/-- The values of tile `t`, in the row-major order in which `Board.__init__`
appends cells to `tiles[t]`. -/
def tileVals (rank : Nat) (vals : Vals) (t : Nat) : List Nat :=
  ((List.range rank).map (fun i =>
    (List.range rank).map (fun j =>
      vals (rank * (t / rank) + i) (rank * (t % rank) + j)))).flatten

/-- `set(range(1, side_length + 1))`, the valid values. -/
def validList (rank : Nat) : List Nat := List.range' 1 (side rank)

/-- `set(values of the unit) == valid`: mutual inclusion of the two sets. -/
def eqValidB (rank : Nat) (l : List Nat) : Bool :=
  (validList rank).all (fun v => l.contains v) &&
    l.all (fun v => (validList rank).contains v)

/-- `Solver.is_solution` of `Sudoku/Solver.py`: every tile, row and column
holds exactly the value set `{1..side}`. -/
def isSolutionB (rank : Nat) (vals : Vals) : Bool :=
  ((List.range (side rank)).all (fun t => eqValidB rank (tileVals rank vals t))) &&
  ((List.range (side rank)).all (fun r => eqValidB rank (rowVals rank vals r))) &&
  ((List.range (side rank)).all (fun c => eqValidB rank (colVals rank vals c)))

/-- `Board.get_empty_cells`: positions with value 0, in cell order. -/
def emptiesOf (rank : Nat) (vals : Vals) : List (Nat × Nat) :=
  (rowMajor rank).filter (fun p => vals p.1 p.2 == 0)

/-- Write `v` into position (r, c). -/
def writeAt (vals : Vals) (r c v : Nat) : Vals :=
  fun r' c' => if r' = r ∧ c' = c then v else vals r' c'

/-- Build board values from a row-major value list (missing entries 0). -/
def ofList (rank : Nat) (values : List Nat) : Vals :=
  fun r c => values.getD (r * side rank + c) 0

namespace SolverPy

/-- The loop body of `Solver.can_solve` (`Sudoku/Solver.py`), with explicit
fuel.  State: the board values and the loop index into `empties`.  The index
`-1` exit of the Python loop is the `index = 0` backtrack case here.  Note
that the backtracking branch does not reset the current cell's value. -/
def canSolveGo (rank : Nat) (empties : List (Nat × Nat)) :
    Nat → Vals → Nat → Option Bool
  | 0, _, _ => none
  | fuel + 1, vals, index =>
    if h : index < empties.length then
      let p := empties.get ⟨index, h⟩
      let v := vals p.1 p.2
      let untried := (List.range' (v + 1) (side rank - v)).filter
        (fun x => (possibles rank vals p).contains x)
      match untried with
      | [] =>
        if index = 0 then some false
        else canSolveGo rank empties fuel vals (index - 1)
      | u :: _ => canSolveGo rank empties fuel (writeAt vals p.1 p.2 u) (index + 1)
    else some (isSolutionB rank vals)

/-- Fuel that dominates the loop's potential function. -/
def solverFuel (rank : Nat) (vals : Vals) : Nat :=
  let e := emptiesOf rank vals
  (e.map (fun p => side rank - vals p.1 p.2)).sum * (e.length + 2) + e.length + 1

/-- `Solver.can_solve`: run the loop from index 0 on (a copy of) the board. -/
def canSolve (rank : Nat) (vals : Vals) : Bool :=
  (canSolveGo rank (emptiesOf rank vals) (solverFuel rank vals) vals 0).getD false

end SolverPy

namespace SolverPy

/-- `Solver.can_solve` threading the caller's board alongside the solver's
working copy: every write of the loop goes to the working copy only. -/
def canSolveGoPair (rank : Nat) (empties : List (Nat × Nat)) :
    Nat → Vals → Vals → Nat → Option (Bool × Vals × Vals)
  | 0, _, _, _ => none
  | fuel + 1, caller, vals, index =>
    if h : index < empties.length then
      let p := empties.get ⟨index, h⟩
      let v := vals p.1 p.2
      let untried := (List.range' (v + 1) (side rank - v)).filter
        (fun x => (possibles rank vals p).contains x)
      match untried with
      | [] =>
        if index = 0 then some (false, caller, vals)
        else canSolveGoPair rank empties fuel caller vals (index - 1)
      | u :: _ =>
        canSolveGoPair rank empties fuel caller (writeAt vals p.1 p.2 u) (index + 1)
    else some (isSolutionB rank vals, caller, vals)

/-- `Board.copy`: a new board built from the listed cell values. -/
def copyVals (rank : Nat) (vals : Vals) : Vals :=
  ofList rank ((rowMajor rank).map (fun p => vals p.1 p.2))

/-- A `Solver(board)` construction followed by `can_solve`: the solver works
on the copy (`self.board = board.copy()`), the caller keeps the original. -/
def runCanSolve (rank : Nat) (caller : Vals) : Option (Bool × Vals × Vals) :=
  let solver := copyVals rank caller
  canSolveGoPair rank (emptiesOf rank solver) (solverFuel rank solver) caller solver 0

end SolverPy

/-- The body of the column loop of `swap_row_values`: the simultaneous swap
of the two cells of rows `r1` and `r2` in column `col`. -/
def swapRowAt (r1 r2 : Nat) (vals : Vals) (col : Nat) : Vals :=
  writeAt (writeAt vals r2 col (vals r1 col)) r1 col (vals r2 col)

/-- The column loop of `swap_row_values` (after its same-band check). -/
def swapRowGo (rank r1 r2 : Nat) (vals : Vals) : Vals :=
  (List.range (side rank)).foldl (swapRowAt r1 r2) vals

/-- The body of the row loop of `swap_column_values`. -/
def swapColAt (c1 c2 : Nat) (vals : Vals) (row : Nat) : Vals :=
  writeAt (writeAt vals row c2 (vals row c1)) row c1 (vals row c2)

/-- The row loop of `swap_column_values` (after its same-stack check). -/
def swapColGo (rank c1 c2 : Nat) (vals : Vals) : Vals :=
  (List.range (side rank)).foldl (swapColAt c1 c2) vals

/-- `Board.swap_row_values`: raises unless the rows are in one band or the
caller passed `allow_different_tiles`; the raise precedes the swap loop, so
on error the board is returned unchanged. -/
def swapRowValues (rank r1 r2 : Nat) (allow : Bool) (vals : Vals) :
    Option String × Vals :=
  if allow = false ∧ r1 / rank ≠ r2 / rank then
    (some "Swapping rows from different tiles is not solution-preserving.", vals)
  else (none, swapRowGo rank r1 r2 vals)

/-- `Board.swap_column_values`, symmetrically. -/
def swapColValues (rank c1 c2 : Nat) (allow : Bool) (vals : Vals) :
    Option String × Vals :=
  if allow = false ∧ c1 / rank ≠ c2 / rank then
    (some "Swapping rows from different tiles is not solution-preserving.", vals)
  else (none, swapColGo rank c1 c2 vals)

/-- `Board.swap_stack_values`: `rank` column swaps with the check relaxed. -/
def swapStackValues (rank s1 s2 : Nat) (vals : Vals) : Vals :=
  (List.range rank).foldl
    (fun v o => swapColGo rank (s1 * rank + o) (s2 * rank + o) v) vals

/-- `Board.swap_band_values`: `rank` row swaps with the check relaxed. -/
def swapBandValues (rank b1 b2 : Nat) (vals : Vals) : Vals :=
  (List.range rank).foldl
    (fun v o => swapRowGo rank (b1 * rank + o) (b2 * rank + o) v) vals

/-- The four elementary moves of `Generator.randomize`, with the indices the
generator draws (a tile base and two offsets, or two band/stack indices). -/
inductive Move where
  | rowSwap (b o1 o2 : Nat)
  | colSwap (s o1 o2 : Nat)
  | bandSwap (b1 b2 : Nat)
  | stackSwap (s1 s2 : Nat)

/-- The index ranges `randomize` draws from. -/
def Move.Valid (rank : Nat) : Move → Prop
  | .rowSwap b o1 o2 => b < rank ∧ o1 < rank ∧ o2 < rank
  | .colSwap s o1 o2 => s < rank ∧ o1 < rank ∧ o2 < rank
  | .bandSwap b1 b2 => b1 < rank ∧ b2 < rank
  | .stackSwap s1 s2 => s1 < rank ∧ s2 < rank

/-- Apply one move the way `randomize` does (row/column swaps go through the
checked entry points without the override). -/
def Move.apply (rank : Nat) : Move → Vals → Vals
  | .rowSwap b o1 o2, vals =>
    (swapRowValues rank (b * rank + o1) (b * rank + o2) false vals).2
  | .colSwap s o1 o2, vals =>
    (swapColValues rank (s * rank + o1) (s * rank + o2) false vals).2
  | .bandSwap b1 b2, vals => swapBandValues rank b1 b2 vals
  | .stackSwap s1 s2, vals => swapStackValues rank s1 s2 vals

/-- A finite sequence of moves, applied left to right. -/
def applyMoves (rank : Nat) (ms : List Move) (vals : Vals) : Vals :=
  ms.foldl (fun v m => m.apply rank v) vals

/-- The cell loop of `Generator.reduce_via_logical` over the pre-shuffled
filled-cell list `order`: clear a visited cell whenever its candidate set has
exactly one element, decrement the cutoff, break when it reaches 0. -/
def reduceLogicalGo (rank : Nat) : List (Nat × Nat) → Nat → Vals → Vals
  | [], _, vals => vals
  | p :: rest, cutoff, vals =>
    if (possibles rank vals p).length = 1 then
      let vals' := writeAt vals p.1 p.2 0
      if cutoff - 1 = 0 then vals' else reduceLogicalGo rank rest (cutoff - 1) vals'
    else reduceLogicalGo rank rest cutoff vals

/-- `Generator.reduce_via_logical`; the random shuffle outcome of the filled
cells is the `order` parameter.  A cutoff `<= 0` returns at once. -/
def reduceViaLogical (rank cutoff : Nat) (order : List (Nat × Nat)) (vals : Vals) : Vals :=
  if cutoff = 0 then vals else reduceLogicalGo rank order cutoff vals

/-- `reduceLogicalGo` instrumented with the list of (cleared cell, board
state at the moment of clearing). -/
def reduceLogicalGoT (rank : Nat) :
    List (Nat × Nat) → Nat → Vals → Vals × List ((Nat × Nat) × Vals)
  | [], _, vals => (vals, [])
  | p :: rest, cutoff, vals =>
    if (possibles rank vals p).length = 1 then
      let vals' := writeAt vals p.1 p.2 0
      if cutoff - 1 = 0 then (vals', [(p, vals)])
      else
        let res := reduceLogicalGoT rank rest (cutoff - 1) vals'
        (res.1, (p, vals) :: res.2)
    else reduceLogicalGoT rank rest cutoff vals

/-- The traced form of `reduce_via_logical`. -/
def reduceViaLogicalT (rank cutoff : Nat) (order : List (Nat × Nat)) (vals : Vals) :
    Vals × List ((Nat × Nat) × Vals) :=
  if cutoff = 0 then (vals, []) else reduceLogicalGoT rank order cutoff vals

/-- The substitute-value loop of `Generator.reduce_via_random` for one cell:
try each other candidate in turn; on the first solvable substitute restore
the original value and stop; otherwise the last tried value stays. -/
def tryOthers (rank : Nat) (p : Nat × Nat) (original : Nat) :
    List Nat → Vals → Vals
  | [], vals => vals
  | x :: rest, vals =>
    let vals' := writeAt vals p.1 p.2 x
    if SolverPy.canSolve rank vals' then writeAt vals' p.1 p.2 original
    else tryOthers rank p original rest vals'

/-- The per-cell body of `Generator.reduce_via_random`: after the substitute
loop, clear the cell and consume the cutoff exactly when its value is no
longer the original. -/
def reduceRandomStep (rank : Nat) (vals : Vals) (cutoff : Nat) (p : Nat × Nat) :
    Vals × Nat :=
  let original := vals p.1 p.2
  let others := (possibles rank vals p).filter (fun x => x != original)
  let vals2 := tryOthers rank p original others vals
  if vals2 p.1 p.2 ≠ original then (writeAt vals2 p.1 p.2 0, cutoff - 1)
  else (vals2, cutoff)

/-- The cell loop of `Generator.reduce_via_random` over the density-ranked
cell list `order`: break when the cutoff reaches 0. -/
def reduceRandomGo (rank : Nat) : List (Nat × Nat) → Nat → Vals → Vals
  | [], _, vals => vals
  | p :: rest, cutoff, vals =>
    let res := reduceRandomStep rank vals cutoff p
    if res.2 = 0 then res.1 else reduceRandomGo rank rest res.2 res.1

/-- `Generator.reduce_via_random`; the density-sorted visiting order is the
`order` parameter.  A cutoff `<= 0` returns at once. -/
def reduceViaRandom (rank cutoff : Nat) (order : List (Nat × Nat)) (vals : Vals) : Vals :=
  if cutoff = 0 then vals else reduceRandomGo rank order cutoff vals

namespace BoardPy

/-- The cell-construction loop of `Board.__init__` (`Sudoku/Board.py`): one
`numbers.pop(0)` per cell.  Returns the built cell values and what remains
of the caller's list; `none` models the `IndexError` of popping an empty
list (unreachable after the length validation). -/
def popBuild : List (Nat × Nat) → List Nat → Option (List Nat × List Nat)
  | [], nums => some ([], nums)
  | _ :: _, [] => none
  | _ :: cells, v :: nums =>
    (popBuild cells nums).map (fun pr => (v :: pr.1, pr.2))

/-- `Board.__init__` of `Sudoku/Board.py` called with a (non-`None`) list:
validates the rank, then — for a truthy (non-empty) list — the length and
the value range, then pops one value per cell.  Returns the built cell
values together with the caller's list as construction leaves it. -/
def mkBoardPy (rank : Nat) (numbers : List Nat) : Except String (List Nat × List Nat) :=
  if ¬(rank = 2 ∨ rank = 3 ∨ rank = 4) then
    .error "Rank must be 2, 3, or 4 (giving side length of 4, 9, or 16)"
  else if numbers = [] then
    -- a falsy `numbers` argument: a fresh all-zero local list is popped
    -- instead, and the caller's list is untouched
    .ok (List.replicate (size rank) 0, numbers)
  else if numbers.length ≠ size rank then
    .error "You must specify a value for each square"
  else if numbers.any (fun v => side rank < v) then
    .error "Each cell value must be in the range 0 to side_length"
  else
    match popBuild (rowMajor rank) numbers with
    | some pr => .ok pr
    | none => .error "IndexError"

/-- The indexed cell-construction loop of `Board.__init__` in
`Sudoku/board.py`: reads `values[value_index]`, mutating nothing. -/
def indexBuild : List (Nat × Nat) → Nat → List Nat → List Nat
  | [], _, _ => []
  | _ :: cells, i, values => values.getD i 0 :: indexBuild cells (i + 1) values

/-- The rank the `board.py` constructor infers from the value count
(0 standing for the unsupported-length error). -/
def lenRank (n : Nat) : Nat :=
  if n = 16 then 2 else if n = 81 then 3 else if n = 256 then 4 else 0

/-- `Board.__init__` of `Sudoku/board.py`: infers the rank from the length,
checks the value range, and reads the caller's list by index.  Returns the
built cell values together with the caller's (unchanged) list. -/
def mkBoardVariant (values : List Nat) : Except String (List Nat × List Nat) :=
  if lenRank values.length = 0 then
    .error "Side length must be 4, 9, or 16 (containing 16, 81, or 256 values)"
  else if values.any (fun v => side (lenRank values.length) < v) then
    .error "Each cell value must be in the range 0 to side_length"
  else .ok (indexBuild (rowMajor (lenRank values.length)) 0 values, values)

end BoardPy

/-- A complete (and valid) rank-2 sample solution. -/
def demo4 : List Nat :=
  [2, 1, 3, 4,
   3, 4, 1, 2,
   1, 2, 4, 3,
   4, 3, 2, 1]

/-- A correct reference backtracker used only to cross-check `canSolve`:
fills the given empty cells in order with currently possible values. -/
def bruteSolvable (rank : Nat) : List (Nat × Nat) → Vals → Bool
  | [], vals => isSolutionB rank vals
  | p :: rest, vals =>
    (possibles rank vals p).any (fun v => bruteSolvable rank rest (writeAt vals p.1 p.2 v))

/-- Blank the cells of `values` selected by the bit mask. -/
def blankMask (values : List Nat) (mask : Nat) : List Nat :=
  (values.enum.map (fun pr => if mask / 2 ^ pr.1 % 2 = 1 then 0 else pr.2))

/-- The C1 failing input: `demo4` with cells 0, 1, 3, 5 and 8 blanked. -/
def cex1 : List Nat :=
  [0, 0, 3, 0,
   3, 0, 1, 2,
   0, 2, 4, 3,
   4, 3, 2, 1]

/-- A rank-3 board on which exactly 10 of the 20 peers of cell (0, 0) are
filled: columns 1..8 of row 0 hold 1..8, and rows 1, 2 of column 0 hold
1, 2.  All other cells are empty. -/
def density10 : List Nat :=
  [0, 1, 2, 3, 4, 5, 6, 7, 8,
   1, 0, 0, 0, 0, 0, 0, 0, 0,
   2, 0, 0, 0, 0, 0, 0, 0, 0,
   0, 0, 0, 0, 0, 0, 0, 0, 0,
   0, 0, 0, 0, 0, 0, 0, 0, 0,
   0, 0, 0, 0, 0, 0, 0, 0, 0,
   0, 0, 0, 0, 0, 0, 0, 0, 0,
   0, 0, 0, 0, 0, 0, 0, 0, 0,
   0, 0, 0, 0, 0, 0, 0, 0, 0]

/-! ## Basic helper lemmas -/

lemma writeAt_self (vals : Vals) (r c v : Nat) : writeAt vals r c v r c = v := by
  simp [writeAt]

lemma writeAt_ne (vals : Vals) (r c v r' c' : Nat) (h : ¬(r' = r ∧ c' = c)) :
    writeAt vals r c v r' c' = vals r' c' := by
  simp [writeAt, h]

lemma writeAt_writeAt (vals : Vals) (r c a b : Nat) :
    writeAt (writeAt vals r c a) r c b = writeAt vals r c b := by
  funext r' c'
  by_cases h : r' = r ∧ c' = c <;> simp [writeAt, h]

lemma mem_rowMajor (rank : Nat) (p : Nat × Nat) :
    p ∈ rowMajor rank ↔ p.1 < side rank ∧ p.2 < side rank := by
  rcases p with ⟨r, c⟩
  simp only [rowMajor, List.mem_flatten, List.mem_map, List.mem_range]
  constructor
  · rintro ⟨l, ⟨r', hr', rfl⟩, hm⟩
    rcases List.mem_map.1 hm with ⟨c', hc', hcc⟩
    rcases hcc with ⟨rfl, rfl⟩  
    exact ⟨hr', List.mem_range.1 hc'⟩
  · rintro ⟨hr, hc⟩
    exact ⟨(List.range (side rank)).map (fun c' => (r, c')), ⟨r, hr, rfl⟩,
      List.mem_map.2 ⟨c, List.mem_range.2 hc, rfl⟩⟩

lemma mem_emptiesOf (rank : Nat) (vals : Vals) (p : Nat × Nat) :
    p ∈ emptiesOf rank vals ↔ p ∈ rowMajor rank ∧ vals p.1 p.2 = 0 := by
  simp [emptiesOf, List.mem_filter]

lemma mem_possibles (rank : Nat) (vals : Vals) (p : Nat × Nat) (v : Nat) :
    v ∈ possibles rank vals p ↔
      (1 ≤ v ∧ v < 1 + side rank) ∧ ∀ q ∈ context rank p, vals q.1 q.2 ≠ v := by
  simp [possibles, List.mem_filter, List.mem_range'_1]

/-! ## C5: characterization of `is_solution` -/

lemma length_validList (rank : Nat) : (validList rank).length = side rank := by
  simp [validList]

lemma nodup_validList (rank : Nat) : (validList rank).Nodup := List.nodup_range' ..

lemma length_rowVals (rank : Nat) (vals : Vals) (r : Nat) :
    (rowVals rank vals r).length = side rank := by simp [rowVals]

lemma length_colVals (rank : Nat) (vals : Vals) (c : Nat) :
    (colVals rank vals c).length = side rank := by simp [colVals]

lemma length_tileVals (rank : Nat) (vals : Vals) (t : Nat) :
    (tileVals rank vals t).length = side rank := by
  simp only [tileVals, List.length_flatten, List.map_map]
  have : ((List.range rank).map
      (List.length ∘ fun i => (List.range rank).map (fun j =>
        vals (rank * (t / rank) + i) (rank * (t % rank) + j)))) =
      (List.range rank).map (fun _ => rank) := by
    apply List.map_congr_left
    intro i _
    simp
  rw [this, List.map_const', List.sum_replicate, List.length_range, smul_eq_mul, side]

lemma eqValidB_true_iff (rank : Nat) (l : List Nat) (hl : l.length = side rank) :
    eqValidB rank l = true ↔ l.Perm (validList rank) := by
  unfold eqValidB
  rw [Bool.and_eq_true, List.all_eq_true, List.all_eq_true]
  constructor
  · rintro ⟨h1, h2⟩
    have hsub : validList rank ⊆ l := by
      intro v hv
      simpa using h1 v hv
    have hsp : List.Subperm (validList rank) l := (nodup_validList rank).subperm hsub
    exact (hsp.perm_of_length_le (by rw [hl, length_validList])).symm
  · intro hp
    refine ⟨fun v hv => ?_, fun v hv => ?_⟩
    · simpa using hp.symm.subset hv
    · simpa using hp.subset hv

lemma isSolutionB_true_iff (rank : Nat) (vals : Vals) :
    isSolutionB rank vals = true ↔
      (∀ t < side rank, eqValidB rank (tileVals rank vals t) = true) ∧
      (∀ r < side rank, eqValidB rank (rowVals rank vals r) = true) ∧
      (∀ c < side rank, eqValidB rank (colVals rank vals c) = true) := by
  unfold isSolutionB
  rw [Bool.and_eq_true, Bool.and_eq_true, List.all_eq_true, List.all_eq_true,
    List.all_eq_true]
  constructor
  · rintro ⟨⟨h1, h2⟩, h3⟩
    exact ⟨fun t ht => h1 t (List.mem_range.2 ht), fun r hr => h2 r (List.mem_range.2 hr),
      fun c hc => h3 c (List.mem_range.2 hc)⟩
  · rintro ⟨h1, h2, h3⟩
    exact ⟨⟨fun t ht => h1 t (List.mem_range.1 ht), fun r hr => h2 r (List.mem_range.1 hr)⟩,
      fun c hc => h3 c (List.mem_range.1 hc)⟩

/-- The `Solver.py` `is_solution` boolean, characterized: true iff every
row, column and tile is a permutation of `1..side` (stated here as a helper;
the C5 theorem at the end of the file combines it with the `norvig_solver.py`
variant's behavior). -/
lemma isSolutionB_perm_iff (rank : Nat) (vals : Vals) :
    isSolutionB rank vals = true ↔
      (∀ r < side rank, (rowVals rank vals r).Perm (validList rank)) ∧
      (∀ c < side rank, (colVals rank vals c).Perm (validList rank)) ∧
      (∀ t < side rank, (tileVals rank vals t).Perm (validList rank)) := by
  rw [isSolutionB_true_iff]
  constructor
  · rintro ⟨h1, h2, h3⟩
    exact ⟨fun r hr => (eqValidB_true_iff rank _ (length_rowVals rank vals r)).1 (h2 r hr),
      fun c hc => (eqValidB_true_iff rank _ (length_colVals rank vals c)).1 (h3 c hc),
      fun t ht => (eqValidB_true_iff rank _ (length_tileVals rank vals t)).1 (h1 t ht)⟩
  · rintro ⟨h2, h3, h1⟩
    exact ⟨fun t ht => (eqValidB_true_iff rank _ (length_tileVals rank vals t)).2 (h1 t ht),
      fun r hr => (eqValidB_true_iff rank _ (length_rowVals rank vals r)).2 (h2 r hr),
      fun c hc => (eqValidB_true_iff rank _ (length_colVals rank vals c)).2 (h3 c hc)⟩

/-! ## C4: the randomize moves preserve solutions -/

/-- Transposition of two naturals. -/
def transp (a b n : Nat) : Nat := if n = a then b else if n = b then a else n

lemma transp_lt {s a b n : Nat} (ha : a < s) (hb : b < s) (hn : n < s) :
    transp a b n < s := by
  unfold transp; split_ifs <;> omega

lemma transp_transp (a b n : Nat) : transp a b (transp a b n) = n := by
  unfold transp; split_ifs <;> omega

lemma transp_fix {a b n : Nat} (ha : n ≠ a) (hb : n ≠ b) : transp a b n = n := by
  simp [transp, ha, hb]

lemma cell_lt {rank x y : Nat} (hx : x < rank) (hy : y < rank) :
    rank * x + y < side rank := by
  unfold side
  calc rank * x + y < rank * x + rank := by omega
    _ = rank * (x + 1) := by ring
    _ ≤ rank * rank := Nat.mul_le_mul_left rank hx

lemma base_div {rank x i : Nat} (hi : i < rank) : (rank * x + i) / rank = x := by
  have hrank : 0 < rank := by omega
  rw [Nat.add_comm, Nat.add_mul_div_left i x hrank, Nat.div_eq_of_lt hi, Nat.zero_add]

lemma base_mod {rank x i : Nat} (hi : i < rank) : (rank * x + i) % rank = i := by
  rw [Nat.add_comm, Nat.add_mul_mod_self_left, Nat.mod_eq_of_lt hi]

lemma base_div' {rank x i : Nat} (hi : i < rank) : (x * rank + i) / rank = x := by
  rw [Nat.mul_comm]; exact base_div hi

lemma base_mod' {rank x i : Nat} (hi : i < rank) : (x * rank + i) % rank = i := by
  rw [Nat.mul_comm]; exact base_mod hi

lemma base_add_inj {rank b x y : Nat} (hx : x < rank) (hy : y < rank) :
    rank * b + x = b * rank + y ↔ x = y := by
  rw [Nat.mul_comm b rank]
  exact ⟨fun h => Nat.add_left_cancel h, fun h => by rw [h]⟩

lemma swapRowAt_apply (r1 r2 : Nat) (vals : Vals) (col x y : Nat) :
    swapRowAt r1 r2 vals col x y =
      if y = col then vals (transp r1 r2 x) y else vals x y := by
  simp only [swapRowAt, writeAt, transp]
  split_ifs <;> simp_all

lemma swapColAt_apply (c1 c2 : Nat) (vals : Vals) (row x y : Nat) :
    swapColAt c1 c2 vals row x y =
      if x = row then vals x (transp c1 c2 y) else vals x y := by
  simp only [swapColAt, writeAt, transp]
  split_ifs <;> simp_all

lemma foldl_swapRowAt_spec (r1 r2 : Nat) (L : List Nat) :
    L.Nodup → ∀ (vals : Vals) (r c : Nat),
      (L.foldl (swapRowAt r1 r2) vals) r c =
        if c ∈ L then vals (transp r1 r2 r) c else vals r c := by
  induction L with
  | nil => intro _ vals r c; simp
  | cons col L ih =>
    intro hnd vals r c
    rcases List.nodup_cons.1 hnd with ⟨hcol, hnd'⟩
    rw [List.foldl_cons, ih hnd']
    by_cases hc : c = col
    · subst hc
      rw [if_neg hcol, if_pos (List.mem_cons_self _ _), swapRowAt_apply, if_pos rfl]
    · by_cases hcL : c ∈ L
      · rw [if_pos hcL, if_pos (List.mem_cons_of_mem _ hcL), swapRowAt_apply, if_neg hc]
      · rw [if_neg hcL, if_neg (by simp [hc, hcL]), swapRowAt_apply, if_neg hc]

lemma foldl_swapColAt_spec (c1 c2 : Nat) (L : List Nat) :
    L.Nodup → ∀ (vals : Vals) (r c : Nat),
      (L.foldl (swapColAt c1 c2) vals) r c =
        if r ∈ L then vals r (transp c1 c2 c) else vals r c := by
  induction L with
  | nil => intro _ vals r c; simp
  | cons row L ih =>
    intro hnd vals r c
    rcases List.nodup_cons.1 hnd with ⟨hrow, hnd'⟩
    rw [List.foldl_cons, ih hnd']
    by_cases hr : r = row
    · subst hr
      rw [if_neg hrow, if_pos (List.mem_cons_self _ _), swapColAt_apply, if_pos rfl]
    · by_cases hrL : r ∈ L
      · rw [if_pos hrL, if_pos (List.mem_cons_of_mem _ hrL), swapColAt_apply, if_neg hr]
      · rw [if_neg hrL, if_neg (by simp [hr, hrL]), swapColAt_apply, if_neg hr]

lemma swapRowGo_apply (rank r1 r2 : Nat) (vals : Vals) (r c : Nat) :
    swapRowGo rank r1 r2 vals r c =
      if c < side rank then vals (transp r1 r2 r) c else vals r c := by
  rw [swapRowGo, foldl_swapRowAt_spec r1 r2 _ (List.nodup_range _)]
  simp [List.mem_range]

lemma swapColGo_apply (rank c1 c2 : Nat) (vals : Vals) (r c : Nat) :
    swapColGo rank c1 c2 vals r c =
      if r < side rank then vals r (transp c1 c2 c) else vals r c := by
  rw [swapColGo, foldl_swapColAt_spec c1 c2 _ (List.nodup_range _)]
  simp [List.mem_range]

/-- The row relabeling a band swap effects. -/
def bandMap (rank b1 b2 r : Nat) : Nat :=
  if r / rank = b1 then b2 * rank + r % rank
  else if r / rank = b2 then b1 * rank + r % rank else r

lemma bandMap_lt {rank b1 b2 : Nat} (hb1 : b1 < rank) (hb2 : b2 < rank) {r : Nat}
    (hr : r < side rank) : bandMap rank b1 b2 r < side rank := by
  have hrank : 0 < rank := by omega
  have hm : r % rank < rank := Nat.mod_lt _ hrank
  unfold bandMap
  split_ifs
  · rw [Nat.mul_comm]; exact cell_lt hb2 hm
  · rw [Nat.mul_comm]; exact cell_lt hb1 hm
  · exact hr

lemma bandMap_invol {rank b1 b2 : Nat} (hb1 : b1 < rank) (hb2 : b2 < rank) (r : Nat) :
    bandMap rank b1 b2 (bandMap rank b1 b2 r) = r := by
  have hrank : 0 < rank := by omega
  have hm : r % rank < rank := Nat.mod_lt _ hrank
  have hsplit := Nat.div_add_mod r rank
  by_cases h1 : r / rank = b1
  · have hd : (b2 * rank + r % rank) / rank = b2 := base_div' hm
    have hmo : (b2 * rank + r % rank) % rank = r % rank := base_mod' hm
    by_cases heq : b2 = b1
    · subst heq
      unfold bandMap
      rw [if_pos h1, if_pos hd, hmo]
      rw [← h1]
      linarith [hsplit, Nat.mul_comm rank (r / rank)]
    · unfold bandMap
      rw [if_pos h1, if_neg (by rw [hd]; exact heq), if_pos hd, hmo]
      rw [← h1]
      linarith [hsplit, Nat.mul_comm rank (r / rank)]
  · by_cases h2 : r / rank = b2
    · have hd : (b1 * rank + r % rank) / rank = b1 := base_div' hm
      have hmo : (b1 * rank + r % rank) % rank = r % rank := base_mod' hm
      unfold bandMap
      rw [if_neg h1, if_pos h2, if_pos hd, hmo]
      rw [← h2]
      linarith [hsplit, Nat.mul_comm rank (r / rank)]
    · unfold bandMap
      rw [if_neg h1, if_neg h2, if_neg h1, if_neg h2]

lemma bandMap_fix {rank b1 b2 r : Nat} (h1 : r / rank ≠ b1) (h2 : r / rank ≠ b2) :
    bandMap rank b1 b2 r = r := by
  simp [bandMap, h1, h2]

lemma foldl_bandSwap_spec (rank b1 b2 : Nat) (hb1 : b1 < rank) (hb2 : b2 < rank)
    (L : List Nat) :
    (∀ o ∈ L, o < rank) → L.Nodup → ∀ (vals : Vals) (r c : Nat),
      (L.foldl (fun v o => swapRowGo rank (b1 * rank + o) (b2 * rank + o) v) vals) r c =
        if c < side rank ∧ r % rank ∈ L ∧ (r / rank = b1 ∨ r / rank = b2) then
          vals (bandMap rank b1 b2 r) c
        else vals r c := by
  have hrank : 0 < rank := by omega
  induction L with
  | nil => intro _ _ vals r c; simp
  | cons o L ih =>
    intro hLlt hnd vals r c
    have ho : o < rank := hLlt o (List.mem_cons_self _ _)
    rcases List.nodup_cons.1 hnd with ⟨hoL, hnd'⟩
    rw [List.foldl_cons, ih (fun x hx => hLlt x (List.mem_cons_of_mem _ hx)) hnd']
    have hmlt : r % rank < rank := Nat.mod_lt _ hrank
    have hsplit : rank * (r / rank) + r % rank = r := Nat.div_add_mod r rank
    by_cases hc : c < side rank
    · by_cases hband : r / rank = b1 ∨ r / rank = b2
      · by_cases hmo : r % rank = o
        · have hnotL : r % rank ∉ L := by rw [hmo]; exact hoL
          rw [if_neg (by simp [hnotL]), if_pos ⟨hc, by simp [hmo], hband⟩,
            swapRowGo_apply, if_pos hc]
          congr 1
          rcases hband with h1 | h2
          · have hrA : r = b1 * rank + o := by
              rw [Nat.mul_comm b1 rank, ← hmo, ← h1, hsplit]
            rw [hrA]
            unfold transp bandMap
            rw [if_pos rfl, if_pos (by rw [← hrA, h1]), ← hrA, hmo]
          · by_cases h1 : r / rank = b1
            · have hrA : r = b1 * rank + o := by
                rw [Nat.mul_comm b1 rank, ← hmo, ← h1, hsplit]
              rw [hrA]
              unfold transp bandMap
              rw [if_pos rfl, if_pos (by rw [← hrA, h1]), ← hrA, hmo]
            · have hrB : r = b2 * rank + o := by
                rw [Nat.mul_comm b2 rank, ← hmo, ← h2, hsplit]
              have hrnA : r ≠ b1 * rank + o := by
                intro h
                exact h1 (by rw [h, base_div' ho])
              unfold transp bandMap
              rw [if_neg hrnA, if_pos (by rw [hrB]), if_neg h1, if_pos h2, hmo]
        · have hAmod : (b1 * rank + o) % rank = o := base_mod' ho
          have hBmod : (b2 * rank + o) % rank = o := base_mod' ho
          have hbandmod : (bandMap rank b1 b2 r) % rank = r % rank := by
            unfold bandMap
            split_ifs
            · exact base_mod' hmlt
            · exact base_mod' hmlt
            · rfl
          by_cases hmem : r % rank ∈ L
          · rw [if_pos ⟨hc, hmem, hband⟩, if_pos ⟨hc, List.mem_cons_of_mem _ hmem, hband⟩,
              swapRowGo_apply, if_pos hc]
            congr 1
            apply transp_fix
            · intro h
              exact hmo (by rw [← hbandmod, h, hAmod])
            · intro h
              exact hmo (by rw [← hbandmod, h, hBmod])
          · rw [if_neg (by simp [hmem, hmo]), if_neg (by simp [hmem, hmo]),
              swapRowGo_apply, if_pos hc]
            congr 1
            apply transp_fix
            · intro h
              exact hmo (by rw [← hAmod, ← h])
            · intro h
              exact hmo (by rw [← hBmod, ← h])
      · have hnb1 : r / rank ≠ b1 := fun h => hband (Or.inl h)
        have hnb2 : r / rank ≠ b2 := fun h => hband (Or.inr h)
        rw [if_neg (by simp [hband]), if_neg (by simp [hband]),
          swapRowGo_apply, if_pos hc]
        congr 1
        apply transp_fix
        · intro h
          exact hnb1 (by rw [h, base_div' ho])
        · intro h
          exact hnb2 (by rw [h, base_div' ho])
    · rw [if_neg (by simp [hc]), if_neg (by simp [hc]), swapRowGo_apply, if_neg hc]

lemma swapBandValues_apply (rank b1 b2 : Nat) (hb1 : b1 < rank) (hb2 : b2 < rank)
    (vals : Vals) (r c : Nat) :
    swapBandValues rank b1 b2 vals r c =
      if c < side rank then vals (bandMap rank b1 b2 r) c else vals r c := by
  have hrank : 0 < rank := by omega
  rw [swapBandValues, foldl_bandSwap_spec rank b1 b2 hb1 hb2 _
    (fun o hx => List.mem_range.1 hx) (List.nodup_range _)]
  by_cases hc : c < side rank
  · by_cases hband : r / rank = b1 ∨ r / rank = b2
    · rw [if_pos ⟨hc, List.mem_range.2 (Nat.mod_lt _ hrank), hband⟩, if_pos hc]
    · rw [if_neg (by simp [hband]), if_pos hc,
        bandMap_fix (fun h => hband (Or.inl h)) (fun h => hband (Or.inr h))]
  · rw [if_neg (by simp [hc]), if_neg hc]

/-- The column relabeling a stack swap effects. -/
def stackMap (rank s1 s2 c : Nat) : Nat :=
  if c / rank = s1 then s2 * rank + c % rank
  else if c / rank = s2 then s1 * rank + c % rank else c

lemma stackMap_lt {rank s1 s2 : Nat} (hs1 : s1 < rank) (hs2 : s2 < rank) {c : Nat}
    (hc : c < side rank) : stackMap rank s1 s2 c < side rank := by
  have hrank : 0 < rank := by omega
  have hm : c % rank < rank := Nat.mod_lt _ hrank
  unfold stackMap
  split_ifs
  · rw [Nat.mul_comm]; exact cell_lt hs2 hm
  · rw [Nat.mul_comm]; exact cell_lt hs1 hm
  · exact hc

lemma stackMap_invol {rank s1 s2 : Nat} (hs1 : s1 < rank) (hs2 : s2 < rank) (c : Nat) :
    stackMap rank s1 s2 (stackMap rank s1 s2 c) = c := by
  have hrank : 0 < rank := by omega
  have hm : c % rank < rank := Nat.mod_lt _ hrank
  have hsplit := Nat.div_add_mod c rank
  by_cases h1 : c / rank = s1
  · have hd : (s2 * rank + c % rank) / rank = s2 := base_div' hm
    have hmo : (s2 * rank + c % rank) % rank = c % rank := base_mod' hm
    by_cases heq : s2 = s1
    · subst heq
      unfold stackMap
      rw [if_pos h1, if_pos hd, hmo]
      rw [← h1]
      linarith [hsplit, Nat.mul_comm rank (c / rank)]
    · unfold stackMap
      rw [if_pos h1, if_neg (by rw [hd]; exact heq), if_pos hd, hmo]
      rw [← h1]
      linarith [hsplit, Nat.mul_comm rank (c / rank)]
  · by_cases h2 : c / rank = s2
    · have hd : (s1 * rank + c % rank) / rank = s1 := base_div' hm
      have hmo : (s1 * rank + c % rank) % rank = c % rank := base_mod' hm
      unfold stackMap
      rw [if_neg h1, if_pos h2, if_pos hd, hmo]
      rw [← h2]
      linarith [hsplit, Nat.mul_comm rank (c / rank)]
    · unfold stackMap
      rw [if_neg h1, if_neg h2, if_neg h1, if_neg h2]

lemma stackMap_fix {rank s1 s2 c : Nat} (h1 : c / rank ≠ s1) (h2 : c / rank ≠ s2) :
    stackMap rank s1 s2 c = c := by
  simp [stackMap, h1, h2]

lemma foldl_stackSwap_spec (rank s1 s2 : Nat) (hs1 : s1 < rank) (hs2 : s2 < rank)
    (L : List Nat) :
    (∀ o ∈ L, o < rank) → L.Nodup → ∀ (vals : Vals) (r c : Nat),
      (L.foldl (fun v o => swapColGo rank (s1 * rank + o) (s2 * rank + o) v) vals) r c =
        if r < side rank ∧ c % rank ∈ L ∧ (c / rank = s1 ∨ c / rank = s2) then
          vals r (stackMap rank s1 s2 c)
        else vals r c := by
  have hrank : 0 < rank := by omega
  induction L with
  | nil => intro _ _ vals r c; simp
  | cons o L ih =>
    intro hLlt hnd vals r c
    have ho : o < rank := hLlt o (List.mem_cons_self _ _)
    rcases List.nodup_cons.1 hnd with ⟨hoL, hnd'⟩
    rw [List.foldl_cons, ih (fun x hx => hLlt x (List.mem_cons_of_mem _ hx)) hnd']
    have hmlt : c % rank < rank := Nat.mod_lt _ hrank
    have hsplit : rank * (c / rank) + c % rank = c := Nat.div_add_mod c rank
    by_cases hr : r < side rank
    · by_cases hstack : c / rank = s1 ∨ c / rank = s2
      · by_cases hmo : c % rank = o
        · have hnotL : c % rank ∉ L := by rw [hmo]; exact hoL
          rw [if_neg (by simp [hnotL]), if_pos ⟨hr, by simp [hmo], hstack⟩,
            swapColGo_apply, if_pos hr]
          congr 1
          rcases hstack with h1 | h2
          · have hcA : c = s1 * rank + o := by
              rw [Nat.mul_comm s1 rank, ← hmo, ← h1, hsplit]
            rw [hcA]
            unfold transp stackMap
            rw [if_pos rfl, if_pos (by rw [← hcA, h1]), ← hcA, hmo]
          · by_cases h1 : c / rank = s1
            · have hcA : c = s1 * rank + o := by
                rw [Nat.mul_comm s1 rank, ← hmo, ← h1, hsplit]
              rw [hcA]
              unfold transp stackMap
              rw [if_pos rfl, if_pos (by rw [← hcA, h1]), ← hcA, hmo]
            · have hcB : c = s2 * rank + o := by
                rw [Nat.mul_comm s2 rank, ← hmo, ← h2, hsplit]
              have hcnA : c ≠ s1 * rank + o := by
                intro h
                exact h1 (by rw [h, base_div' ho])
              unfold transp stackMap
              rw [if_neg hcnA, if_pos (by rw [hcB]), if_neg h1, if_pos h2, hmo]
        · have hAmod : (s1 * rank + o) % rank = o := base_mod' ho
          have hBmod : (s2 * rank + o) % rank = o := base_mod' ho
          have hstackmod : (stackMap rank s1 s2 c) % rank = c % rank := by
            unfold stackMap
            split_ifs
            · exact base_mod' hmlt
            · exact base_mod' hmlt
            · rfl
          by_cases hmem : c % rank ∈ L
          · rw [if_pos ⟨hr, hmem, hstack⟩, if_pos ⟨hr, List.mem_cons_of_mem _ hmem, hstack⟩,
              swapColGo_apply, if_pos hr]
            congr 1
            apply transp_fix
            · intro h
              exact hmo (by rw [← hstackmod, h, hAmod])
            · intro h
              exact hmo (by rw [← hstackmod, h, hBmod])
          · rw [if_neg (by simp [hmem, hmo]), if_neg (by simp [hmem, hmo]),
              swapColGo_apply, if_pos hr]
            congr 1
            apply transp_fix
            · intro h
              exact hmo (by rw [← hAmod, ← h])
            · intro h
              exact hmo (by rw [← hBmod, ← h])
      · have hns1 : c / rank ≠ s1 := fun h => hstack (Or.inl h)
        have hns2 : c / rank ≠ s2 := fun h => hstack (Or.inr h)
        rw [if_neg (by simp [hstack]), if_neg (by simp [hstack]),
          swapColGo_apply, if_pos hr]
        congr 1
        apply transp_fix
        · intro h
          exact hns1 (by rw [h, base_div' ho])
        · intro h
          exact hns2 (by rw [h, base_div' ho])
    · rw [if_neg (by simp [hr]), if_neg (by simp [hr]), swapColGo_apply, if_neg hr]

lemma swapStackValues_apply (rank s1 s2 : Nat) (hs1 : s1 < rank) (hs2 : s2 < rank)
    (vals : Vals) (r c : Nat) :
    swapStackValues rank s1 s2 vals r c =
      if r < side rank then vals r (stackMap rank s1 s2 c) else vals r c := by
  have hrank : 0 < rank := by omega
  rw [swapStackValues, foldl_stackSwap_spec rank s1 s2 hs1 hs2 _
    (fun o hx => List.mem_range.1 hx) (List.nodup_range _)]
  by_cases hr : r < side rank
  · by_cases hstack : c / rank = s1 ∨ c / rank = s2
    · rw [if_pos ⟨hr, List.mem_range.2 (Nat.mod_lt _ hrank), hstack⟩, if_pos hr]
    · rw [if_neg (by simp [hstack]), if_pos hr,
        stackMap_fix (fun h => hstack (Or.inl h)) (fun h => hstack (Or.inr h))]
  · rw [if_neg (by simp [hr]), if_neg hr]

lemma mem_map_range_reindex {α : Type} (f : Nat → α) (σ : Nat → Nat) (s : Nat)
    (hlt : ∀ n, n < s → σ n < s) (hinv : ∀ n, n < s → σ (σ n) = n) (v : α) :
    (v ∈ (List.range s).map (fun n => f (σ n))) ↔ v ∈ (List.range s).map f := by
  constructor
  · intro h
    rcases List.mem_map.1 h with ⟨n, hn, rfl⟩
    exact List.mem_map.2 ⟨σ n, List.mem_range.2 (hlt n (List.mem_range.1 hn)), rfl⟩
  · intro h
    rcases List.mem_map.1 h with ⟨n, hn, rfl⟩
    have hn' := List.mem_range.1 hn
    exact List.mem_map.2 ⟨σ n, List.mem_range.2 (hlt n hn'), by rw [hinv n hn']⟩

lemma mem_tileVals (rank : Nat) (vals : Vals) (t : Nat) (v : Nat) :
    v ∈ tileVals rank vals t ↔
      ∃ i, i < rank ∧ ∃ j, j < rank ∧
        vals (rank * (t / rank) + i) (rank * (t % rank) + j) = v := by
  simp only [tileVals, List.mem_flatten, List.mem_map, List.mem_range]
  constructor
  · rintro ⟨l, ⟨i, hi, rfl⟩, hm⟩
    rcases List.mem_map.1 hm with ⟨j, hj, rfl⟩
    exact ⟨i, hi, j, List.mem_range.1 hj, rfl⟩
  · rintro ⟨i, hi, j, hj, heq⟩
    exact ⟨_, ⟨i, hi, rfl⟩, List.mem_map.2 ⟨j, List.mem_range.2 hj, heq⟩⟩

lemma tileVals_congr (rank : Nat) (w w' : Vals) (t t' : Nat)
    (h : ∀ i, i < rank → ∀ j, j < rank →
      w (rank * (t / rank) + i) (rank * (t % rank) + j) =
        w' (rank * (t' / rank) + i) (rank * (t' % rank) + j)) :
    tileVals rank w t = tileVals rank w' t' := by
  unfold tileVals
  refine congrArg List.flatten ?_
  apply List.map_congr_left
  intro i hi
  apply List.map_congr_left
  intro j hj
  exact h i (List.mem_range.1 hi) j (List.mem_range.1 hj)

lemma eqValidB_mem_congr (rank : Nat) (l l' : List Nat) (h : ∀ v, v ∈ l ↔ v ∈ l') :
    eqValidB rank l = eqValidB rank l' := by
  have hb : ∀ (p q : Bool), (p = true ↔ q = true) → p = q := by decide
  apply hb
  unfold eqValidB
  rw [Bool.and_eq_true, Bool.and_eq_true, List.all_eq_true, List.all_eq_true,
    List.all_eq_true, List.all_eq_true]
  have hcont : ∀ v : Nat, (l.contains v = true) ↔ (l'.contains v = true) := by
    intro v
    simp [h v]
  constructor
  · rintro ⟨h1, h2⟩
    refine ⟨fun v hv => (hcont v).1 (h1 v hv), fun v hv => ?_⟩
    simpa using h2 v ((h v).2 hv)
  · rintro ⟨h1, h2⟩
    refine ⟨fun v hv => (hcont v).2 (h1 v hv), fun v hv => ?_⟩
    simpa using h2 v ((h v).1 hv)

lemma transp_band_offset {rank b o1 o2 i : Nat} (h1 : o1 < rank) (h2 : o2 < rank)
    (hi : i < rank) :
    transp (b * rank + o1) (b * rank + o2) (rank * b + i) = rank * b + transp o1 o2 i := by
  unfold transp
  by_cases e1 : i = o1
  · rw [if_pos (by rw [e1, Nat.mul_comm]), if_pos e1, Nat.mul_comm]
  · rw [if_neg (fun h => e1 ((base_add_inj hi h1).1 h)), if_neg e1]
    by_cases e2 : i = o2
    · rw [if_pos (by rw [e2, Nat.mul_comm]), if_pos e2, Nat.mul_comm]
    · rw [if_neg (fun h => e2 ((base_add_inj hi h2).1 h)), if_neg e2]

lemma swapRowGo_preserves (rank b o1 o2 : Nat) (hb : b < rank) (h1 : o1 < rank)
    (h2 : o2 < rank) (vals : Vals) (hs : isSolutionB rank vals = true) :
    isSolutionB rank (swapRowGo rank (b * rank + o1) (b * rank + o2) vals) = true := by
  have hrank : 0 < rank := by omega
  have hr1 : b * rank + o1 < side rank := by rw [Nat.mul_comm]; exact cell_lt hb h1
  have hr2 : b * rank + o2 < side rank := by rw [Nat.mul_comm]; exact cell_lt hb h2
  rw [isSolutionB_true_iff] at hs ⊢
  obtain ⟨ht, hr, hc⟩ := hs
  refine ⟨?_, ?_, ?_⟩
  · intro t htlt
    have htm : t % rank < rank := Nat.mod_lt _ hrank
    have hcolb : ∀ j, j < rank → rank * (t % rank) + j < side rank :=
      fun j hj => cell_lt htm hj
    by_cases hband : t / rank = b
    · have hmem : ∀ v,
          v ∈ tileVals rank (swapRowGo rank (b * rank + o1) (b * rank + o2) vals) t ↔
            v ∈ tileVals rank vals t := by
        intro v
        rw [mem_tileVals, mem_tileVals]
        constructor
        · rintro ⟨i, hi, j, hj, heq⟩
          refine ⟨transp o1 o2 i, transp_lt h1 h2 hi, j, hj, ?_⟩
          rw [swapRowGo_apply, if_pos (hcolb j hj), hband, transp_band_offset h1 h2 hi]
            at heq
          rw [hband]
          exact heq
        · rintro ⟨i, hi, j, hj, heq⟩
          refine ⟨transp o1 o2 i, transp_lt h1 h2 hi, j, hj, ?_⟩
          rw [swapRowGo_apply, if_pos (hcolb j hj), hband,
            transp_band_offset h1 h2 (transp_lt h1 h2 hi), transp_transp]
          rw [hband] at heq
          exact heq
      rw [eqValidB_mem_congr rank _ _ hmem]
      exact ht t htlt
    · have heq : tileVals rank (swapRowGo rank (b * rank + o1) (b * rank + o2) vals) t =
          tileVals rank vals t := by
        apply tileVals_congr
        intro i hi j hj
        rw [swapRowGo_apply, if_pos (hcolb j hj), transp_fix]
        · intro hcontra
          apply hband
          rw [← @base_div rank (t / rank) i hi, hcontra, base_div' h1]
        · intro hcontra
          apply hband
          rw [← @base_div rank (t / rank) i hi, hcontra, base_div' h2]
      rw [heq]
      exact ht t htlt
  · intro r hrlt
    have heq : rowVals rank (swapRowGo rank (b * rank + o1) (b * rank + o2) vals) r =
        rowVals rank vals (transp (b * rank + o1) (b * rank + o2) r) := by
      unfold rowVals
      apply List.map_congr_left
      intro c hcm
      rw [swapRowGo_apply, if_pos (List.mem_range.1 hcm)]
    rw [heq]
    exact hr _ (transp_lt hr1 hr2 hrlt)
  · intro c hclt
    have hmem : ∀ v,
        v ∈ colVals rank (swapRowGo rank (b * rank + o1) (b * rank + o2) vals) c ↔
          v ∈ colVals rank vals c := by
      intro v
      have heq : colVals rank (swapRowGo rank (b * rank + o1) (b * rank + o2) vals) c =
          (List.range (side rank)).map
            (fun r => vals (transp (b * rank + o1) (b * rank + o2) r) c) := by
        unfold colVals
        apply List.map_congr_left
        intro r hrm
        rw [swapRowGo_apply, if_pos hclt]
      rw [heq]
      exact mem_map_range_reindex (fun r => vals r c) (transp _ _) (side rank)
        (fun n hn => transp_lt hr1 hr2 hn) (fun n _ => transp_transp _ _ n) v
    rw [eqValidB_mem_congr rank _ _ hmem]
    exact hc c hclt

lemma swapColGo_preserves (rank s o1 o2 : Nat) (hs' : s < rank) (h1 : o1 < rank)
    (h2 : o2 < rank) (vals : Vals) (hs : isSolutionB rank vals = true) :
    isSolutionB rank (swapColGo rank (s * rank + o1) (s * rank + o2) vals) = true := by
  have hrank : 0 < rank := by omega
  have hc1 : s * rank + o1 < side rank := by rw [Nat.mul_comm]; exact cell_lt hs' h1
  have hc2 : s * rank + o2 < side rank := by rw [Nat.mul_comm]; exact cell_lt hs' h2
  rw [isSolutionB_true_iff] at hs ⊢
  obtain ⟨ht, hr, hc⟩ := hs
  refine ⟨?_, ?_, ?_⟩
  · intro t htlt
    have htdiv : t / rank < rank := by
      rw [Nat.div_lt_iff_lt_mul hrank]
      exact htlt
    have hrowb : ∀ i, i < rank → rank * (t / rank) + i < side rank :=
      fun i hi => cell_lt htdiv hi
    by_cases hstack : t % rank = s
    · have hmem : ∀ v,
          v ∈ tileVals rank (swapColGo rank (s * rank + o1) (s * rank + o2) vals) t ↔
            v ∈ tileVals rank vals t := by
        intro v
        rw [mem_tileVals, mem_tileVals]
        constructor
        · rintro ⟨i, hi, j, hj, heq⟩
          refine ⟨i, hi, transp o1 o2 j, transp_lt h1 h2 hj, ?_⟩
          rw [swapColGo_apply, if_pos (hrowb i hi), hstack, transp_band_offset h1 h2 hj]
            at heq
          rw [hstack]
          exact heq
        · rintro ⟨i, hi, j, hj, heq⟩
          refine ⟨i, hi, transp o1 o2 j, transp_lt h1 h2 hj, ?_⟩
          rw [swapColGo_apply, if_pos (hrowb i hi), hstack,
            transp_band_offset h1 h2 (transp_lt h1 h2 hj), transp_transp]
          rw [hstack] at heq
          exact heq
      rw [eqValidB_mem_congr rank _ _ hmem]
      exact ht t htlt
    · have heq : tileVals rank (swapColGo rank (s * rank + o1) (s * rank + o2) vals) t =
          tileVals rank vals t := by
        apply tileVals_congr
        intro i hi j hj
        rw [swapColGo_apply, if_pos (hrowb i hi), transp_fix]
        · intro hcontra
          apply hstack
          rw [← @base_div rank (t % rank) j hj, hcontra, base_div' h1]
        · intro hcontra
          apply hstack
          rw [← @base_div rank (t % rank) j hj, hcontra, base_div' h2]
      rw [heq]
      exact ht t htlt
  · intro r hrlt
    have hmem : ∀ v,
        v ∈ rowVals rank (swapColGo rank (s * rank + o1) (s * rank + o2) vals) r ↔
          v ∈ rowVals rank vals r := by
      intro v
      have heq : rowVals rank (swapColGo rank (s * rank + o1) (s * rank + o2) vals) r =
          (List.range (side rank)).map
            (fun c => vals r (transp (s * rank + o1) (s * rank + o2) c)) := by
        unfold rowVals
        apply List.map_congr_left
        intro c hcm
        rw [swapColGo_apply, if_pos hrlt]
      rw [heq]
      exact mem_map_range_reindex (fun c => vals r c) (transp _ _) (side rank)
        (fun n hn => transp_lt hc1 hc2 hn) (fun n _ => transp_transp _ _ n) v
    rw [eqValidB_mem_congr rank _ _ hmem]
    exact hr r hrlt
  · intro c hclt
    have heq : colVals rank (swapColGo rank (s * rank + o1) (s * rank + o2) vals) c =
        colVals rank vals (transp (s * rank + o1) (s * rank + o2) c) := by
      unfold colVals
      apply List.map_congr_left
      intro r hrm
      rw [swapColGo_apply, if_pos (List.mem_range.1 hrm)]
    rw [heq]
    exact hc _ (transp_lt hc1 hc2 hclt)

lemma swapBandValues_preserves (rank b1 b2 : Nat) (hb1 : b1 < rank) (hb2 : b2 < rank)
    (vals : Vals) (hs : isSolutionB rank vals = true) :
    isSolutionB rank (swapBandValues rank b1 b2 vals) = true := by
  have hrank : 0 < rank := by omega
  rw [isSolutionB_true_iff] at hs ⊢
  obtain ⟨ht, hr, hc⟩ := hs
  refine ⟨?_, ?_, ?_⟩
  · intro t htlt
    have htm : t % rank < rank := Nat.mod_lt _ hrank
    have hcolb : ∀ j, j < rank → rank * (t % rank) + j < side rank :=
      fun j hj => cell_lt htm hj
    by_cases h1 : t / rank = b1
    · have heq : tileVals rank (swapBandValues rank b1 b2 vals) t =
          tileVals rank vals (rank * b2 + t % rank) := by
        apply tileVals_congr
        intro i hi j hj
        rw [swapBandValues_apply rank b1 b2 hb1 hb2, if_pos (hcolb j hj)]
        have hbm : bandMap rank b1 b2 (rank * (t / rank) + i) = rank * b2 + i := by
          unfold bandMap
          rw [h1, base_div hi, if_pos rfl, base_mod hi, Nat.mul_comm]
        rw [hbm, base_div htm, base_mod htm]
      rw [heq]
      exact ht _ (cell_lt hb2 htm)
    · by_cases h2 : t / rank = b2
      · have heq : tileVals rank (swapBandValues rank b1 b2 vals) t =
            tileVals rank vals (rank * b1 + t % rank) := by
          apply tileVals_congr
          intro i hi j hj
          rw [swapBandValues_apply rank b1 b2 hb1 hb2, if_pos (hcolb j hj)]
          have hbm : bandMap rank b1 b2 (rank * (t / rank) + i) = rank * b1 + i := by
            unfold bandMap
            rw [h2, base_div hi]
            by_cases heq12 : b2 = b1
            · rw [if_pos heq12, heq12, base_mod hi, Nat.mul_comm]
            · rw [if_neg heq12, if_pos rfl, base_mod hi, Nat.mul_comm]
          rw [hbm, base_div htm, base_mod htm]
        rw [heq]
        exact ht _ (cell_lt hb1 htm)
      · have heq : tileVals rank (swapBandValues rank b1 b2 vals) t =
            tileVals rank vals t := by
          apply tileVals_congr
          intro i hi j hj
          rw [swapBandValues_apply rank b1 b2 hb1 hb2, if_pos (hcolb j hj),
            bandMap_fix (by rw [base_div hi]; exact h1) (by rw [base_div hi]; exact h2)]
        rw [heq]
        exact ht t htlt
  · intro r hrlt
    have heq : rowVals rank (swapBandValues rank b1 b2 vals) r =
        rowVals rank vals (bandMap rank b1 b2 r) := by
      unfold rowVals
      apply List.map_congr_left
      intro c hcm
      rw [swapBandValues_apply rank b1 b2 hb1 hb2, if_pos (List.mem_range.1 hcm)]
    rw [heq]
    exact hr _ (bandMap_lt hb1 hb2 hrlt)
  · intro c hclt
    have hmem : ∀ v,
        v ∈ colVals rank (swapBandValues rank b1 b2 vals) c ↔ v ∈ colVals rank vals c := by
      intro v
      have heq : colVals rank (swapBandValues rank b1 b2 vals) c =
          (List.range (side rank)).map (fun r => vals (bandMap rank b1 b2 r) c) := by
        unfold colVals
        apply List.map_congr_left
        intro r hrm
        rw [swapBandValues_apply rank b1 b2 hb1 hb2, if_pos hclt]
      rw [heq]
      exact mem_map_range_reindex (fun r => vals r c) (bandMap rank b1 b2) (side rank)
        (fun n hn => bandMap_lt hb1 hb2 hn) (fun n _ => bandMap_invol hb1 hb2 n) v
    rw [eqValidB_mem_congr rank _ _ hmem]
    exact hc c hclt

lemma swapStackValues_preserves (rank s1 s2 : Nat) (hs1 : s1 < rank) (hs2 : s2 < rank)
    (vals : Vals) (hs : isSolutionB rank vals = true) :
    isSolutionB rank (swapStackValues rank s1 s2 vals) = true := by
  have hrank : 0 < rank := by omega
  rw [isSolutionB_true_iff] at hs ⊢
  obtain ⟨ht, hr, hc⟩ := hs
  refine ⟨?_, ?_, ?_⟩
  · intro t htlt
    have htm : t % rank < rank := Nat.mod_lt _ hrank
    have htdiv : t / rank < rank := by
      rw [Nat.div_lt_iff_lt_mul hrank]
      exact htlt
    have hrowb : ∀ i, i < rank → rank * (t / rank) + i < side rank :=
      fun i hi => cell_lt htdiv hi
    by_cases h1 : t % rank = s1
    · have heq : tileVals rank (swapStackValues rank s1 s2 vals) t =
          tileVals rank vals (rank * (t / rank) + s2) := by
        apply tileVals_congr
        intro i hi j hj
        rw [swapStackValues_apply rank s1 s2 hs1 hs2, if_pos (hrowb i hi)]
        have hsm : stackMap rank s1 s2 (rank * (t % rank) + j) = rank * s2 + j := by
          unfold stackMap
          rw [h1, base_div hj, if_pos rfl, base_mod hj, Nat.mul_comm]
        rw [hsm, base_div hs2, base_mod hs2]
      rw [heq]
      exact ht _ (cell_lt htdiv hs2)
    · by_cases h2 : t % rank = s2
      · have heq : tileVals rank (swapStackValues rank s1 s2 vals) t =
            tileVals rank vals (rank * (t / rank) + s1) := by
          apply tileVals_congr
          intro i hi j hj
          rw [swapStackValues_apply rank s1 s2 hs1 hs2, if_pos (hrowb i hi)]
          have hsm : stackMap rank s1 s2 (rank * (t % rank) + j) = rank * s1 + j := by
            unfold stackMap
            rw [h2, base_div hj]
            by_cases heq12 : s2 = s1
            · rw [if_pos heq12, heq12, base_mod hj, Nat.mul_comm]
            · rw [if_neg heq12, if_pos rfl, base_mod hj, Nat.mul_comm]
          rw [hsm, base_div hs1, base_mod hs1]
        rw [heq]
        exact ht _ (cell_lt htdiv hs1)
      · have heq : tileVals rank (swapStackValues rank s1 s2 vals) t =
            tileVals rank vals t := by
          apply tileVals_congr
          intro i hi j hj
          rw [swapStackValues_apply rank s1 s2 hs1 hs2, if_pos (hrowb i hi),
            stackMap_fix (by rw [base_div hj]; exact h1) (by rw [base_div hj]; exact h2)]
        rw [heq]
        exact ht t htlt
  · intro r hrlt
    have hmem : ∀ v,
        v ∈ rowVals rank (swapStackValues rank s1 s2 vals) r ↔ v ∈ rowVals rank vals r := by
      intro v
      have heq : rowVals rank (swapStackValues rank s1 s2 vals) r =
          (List.range (side rank)).map (fun c => vals r (stackMap rank s1 s2 c)) := by
        unfold rowVals
        apply List.map_congr_left
        intro c hcm
        rw [swapStackValues_apply rank s1 s2 hs1 hs2, if_pos hrlt]
      rw [heq]
      exact mem_map_range_reindex (fun c => vals r c) (stackMap rank s1 s2) (side rank)
        (fun n hn => stackMap_lt hs1 hs2 hn) (fun n _ => stackMap_invol hs1 hs2 n) v
    rw [eqValidB_mem_congr rank _ _ hmem]
    exact hr r hrlt
  · intro c hclt
    have heq : colVals rank (swapStackValues rank s1 s2 vals) c =
        colVals rank vals (stackMap rank s1 s2 c) := by
      unfold colVals
      apply List.map_congr_left
      intro r hrm
      rw [swapStackValues_apply rank s1 s2 hs1 hs2, if_pos (List.mem_range.1 hrm)]
    rw [heq]
    exact hc _ (stackMap_lt hs1 hs2 hclt)

lemma moveApply_rowSwap (rank b o1 o2 : Nat) (h1 : o1 < rank) (h2 : o2 < rank)
    (vals : Vals) :
    Move.apply rank (.rowSwap b o1 o2) vals =
      swapRowGo rank (b * rank + o1) (b * rank + o2) vals := by
  show (swapRowValues rank (b * rank + o1) (b * rank + o2) false vals).2 = _
  unfold swapRowValues
  rw [if_neg]
  rintro ⟨-, hne⟩
  exact hne (by rw [base_div' h1, base_div' h2])

lemma moveApply_colSwap (rank s o1 o2 : Nat) (h1 : o1 < rank) (h2 : o2 < rank)
    (vals : Vals) :
    Move.apply rank (.colSwap s o1 o2) vals =
      swapColGo rank (s * rank + o1) (s * rank + o2) vals := by
  show (swapColValues rank (s * rank + o1) (s * rank + o2) false vals).2 = _
  unfold swapColValues
  rw [if_neg]
  rintro ⟨-, hne⟩
  exact hne (by rw [base_div' h1, base_div' h2])

lemma move_preserves (rank : Nat) (m : Move) (hm : m.Valid rank) (vals : Vals)
    (hs : isSolutionB rank vals = true) : isSolutionB rank (m.apply rank vals) = true := by
  cases m with
  | rowSwap b o1 o2 =>
    obtain ⟨hb, h1, h2⟩ := hm
    rw [moveApply_rowSwap rank b o1 o2 h1 h2]
    exact swapRowGo_preserves rank b o1 o2 hb h1 h2 vals hs
  | colSwap s o1 o2 =>
    obtain ⟨hs', h1, h2⟩ := hm
    rw [moveApply_colSwap rank s o1 o2 h1 h2]
    exact swapColGo_preserves rank s o1 o2 hs' h1 h2 vals hs
  | bandSwap b1 b2 =>
    obtain ⟨hb1, hb2⟩ := hm
    exact swapBandValues_preserves rank b1 b2 hb1 hb2 vals hs
  | stackSwap s1 s2 =>
    obtain ⟨hs1, hs2⟩ := hm
    exact swapStackValues_preserves rank s1 s2 hs1 hs2 vals hs

/-- C4: every elementary `randomize` move — a row swap within one band, a
column swap within one stack, a band swap, or a stack swap — and every
finite sequence of such moves maps a grid that is a solution to a grid that
is again a solution. -/
theorem randomize_moves_preserve_solution (rank : Nat) (ms : List Move) :
    ∀ (vals : Vals), (∀ m ∈ ms, m.Valid rank) → isSolutionB rank vals = true →
      isSolutionB rank (applyMoves rank ms vals) = true := by
  induction ms with
  | nil => intro vals _ hs; exact hs
  | cons m ms ih =>
    intro vals hv hs
    exact ih (m.apply rank vals) (fun m' hm' => hv m' (List.mem_cons_of_mem _ hm'))
      (move_preserves rank m (hv m (List.mem_cons_self _ _)) vals hs)

/-- Witness for C4 at a concrete input: a solved rank-2 board stays a
solution under one move of each kind. -/
theorem randomize_moves_preserve_solution_witness :
    isSolutionB 2 (ofList 2 demo4) = true ∧
    isSolutionB 2 (applyMoves 2
      [Move.rowSwap 0 0 1, Move.colSwap 1 1 0, Move.bandSwap 0 1, Move.stackSwap 1 0]
      (ofList 2 demo4)) = true :=
  ⟨by decide, randomize_moves_preserve_solution 2 _ _
    (by
      intro m hm
      fin_cases hm <;> simp [Move.Valid])
    (by decide)⟩

/-! ## C7: the logical reduction pass -/

lemma reduceLogicalGoT_fst (rank : Nat) :
    ∀ (order : List (Nat × Nat)) (cutoff : Nat) (vals : Vals),
      (reduceLogicalGoT rank order cutoff vals).1 = reduceLogicalGo rank order cutoff vals := by
  intro order
  induction order with
  | nil => intro cutoff vals; rfl
  | cons p rest ih =>
    intro cutoff vals
    rw [reduceLogicalGoT, reduceLogicalGo]
    by_cases hp : (possibles rank vals p).length = 1
    · rw [if_pos hp, if_pos hp]
      by_cases hcut : cutoff - 1 = 0
      · rw [if_pos hcut, if_pos hcut]
      · rw [if_neg hcut, if_neg hcut]
        exact ih _ _
    · rw [if_neg hp, if_neg hp]
      exact ih _ _

lemma reduceLogicalGoT_spec (rank : Nat) :
    ∀ (order : List (Nat × Nat)) (cutoff : Nat) (vals : Vals), cutoff ≠ 0 →
      (reduceLogicalGoT rank order cutoff vals).2.length ≤ cutoff ∧
      (∀ e ∈ (reduceLogicalGoT rank order cutoff vals).2,
        (possibles rank e.2 e.1).length = 1) ∧
      (reduceLogicalGoT rank order cutoff vals).1 =
        ((reduceLogicalGoT rank order cutoff vals).2.map Prod.fst).foldl
          (fun v p => writeAt v p.1 p.2 0) vals := by
  intro order
  induction order with
  | nil =>
    intro cutoff vals _
    exact ⟨by simp [reduceLogicalGoT], by simp [reduceLogicalGoT], rfl⟩
  | cons p rest ih =>
    intro cutoff vals hcut0
    rw [reduceLogicalGoT]
    by_cases hp : (possibles rank vals p).length = 1
    · rw [if_pos hp]
      by_cases hcut : cutoff - 1 = 0
      · rw [if_pos hcut]
        refine ⟨by simpa using Nat.one_le_iff_ne_zero.2 hcut0, ?_, by simp⟩
        intro e he
        rcases List.mem_singleton.1 he with rfl
        exact hp
      · rw [if_neg hcut]
        obtain ⟨hlen, hmem, hfold⟩ := ih (cutoff - 1) (writeAt vals p.1 p.2 0) hcut
        refine ⟨?_, ?_, ?_⟩
        · simpa using Nat.succ_le_of_lt (Nat.lt_of_le_of_lt hlen (by omega))
        · intro e he
          rcases List.mem_cons.1 he with rfl | he'
          · exact hp
          · exact hmem e he'
        · simpa using hfold
    · rw [if_neg hp]
      exact ih cutoff vals hcut0

/-- C7: the logical pass clears at most `cutoff` cells; every cleared cell
had a candidate set of size exactly one at the moment it was cleared (the
trace records that board state); and the output is the input with exactly
the traced cells written to 0.  The pass is defined purely from the board
topology — it contains no reference to the solver. -/
theorem reduce_via_logical_spec (rank cutoff : Nat) (order : List (Nat × Nat))
    (vals : Vals) :
    reduceViaLogical rank cutoff order vals = (reduceViaLogicalT rank cutoff order vals).1 ∧
    (reduceViaLogicalT rank cutoff order vals).2.length ≤ cutoff ∧
    (∀ e ∈ (reduceViaLogicalT rank cutoff order vals).2,
      (possibles rank e.2 e.1).length = 1) ∧
    reduceViaLogical rank cutoff order vals =
      ((reduceViaLogicalT rank cutoff order vals).2.map Prod.fst).foldl
        (fun v p => writeAt v p.1 p.2 0) vals := by
  unfold reduceViaLogical reduceViaLogicalT
  by_cases hcut : cutoff = 0
  · rw [if_pos hcut, if_pos hcut]
    exact ⟨rfl, by simp, by simp, rfl⟩
  · rw [if_neg hcut, if_neg hcut]
    obtain ⟨hlen, hmem, hfold⟩ := reduceLogicalGoT_spec rank order cutoff vals hcut
    exact ⟨(reduceLogicalGoT_fst rank order cutoff vals).symm, hlen, hmem,
      (reduceLogicalGoT_fst rank order cutoff vals).symm.trans hfold⟩

/-- Witness for C7 at a concrete input. -/
theorem reduce_via_logical_spec_witness :
    (reduceViaLogicalT 2 3 (rowMajor 2) (ofList 2 demo4)).2.length ≤ 3 :=
  (reduce_via_logical_spec 2 3 (rowMajor 2) (ofList 2 demo4)).2.1

/-! ## C2: the per-cell behavior of the randomized reduction pass -/

lemma writeAt_eq_of_agree (vals vals0 : Vals) (p : Nat × Nat) (x : Nat)
    (h : ∀ r c, ¬(r = p.1 ∧ c = p.2) → vals0 r c = vals r c) :
    writeAt vals0 p.1 p.2 x = writeAt vals p.1 p.2 x := by
  funext r c
  by_cases hp : r = p.1 ∧ c = p.2
  · simp [writeAt, hp]
  · simp only [writeAt, if_neg hp]
    exact h r c hp

lemma tryOthers_restores (rank : Nat) (p : Nat × Nat) (original : Nat) :
    ∀ (L : List Nat) (vals vals0 : Vals),
      (∀ r c, ¬(r = p.1 ∧ c = p.2) → vals0 r c = vals r c) →
      (∃ x ∈ L, SolverPy.canSolve rank (writeAt vals p.1 p.2 x) = true) →
      tryOthers rank p original L vals0 = writeAt vals p.1 p.2 original := by
  intro L
  induction L with
  | nil =>
    intro vals vals0 _ hex
    rcases hex with ⟨x, hx, _⟩
    exact absurd hx (List.not_mem_nil x)
  | cons x rest ih =>
    intro vals vals0 hagree hex
    rw [tryOthers]
    have hfun : writeAt vals0 p.1 p.2 x = writeAt vals p.1 p.2 x :=
      writeAt_eq_of_agree vals vals0 p x hagree
    by_cases hsolve : SolverPy.canSolve rank (writeAt vals0 p.1 p.2 x) = true
    · rw [if_pos hsolve, hfun, writeAt_writeAt]
    · rw [if_neg hsolve]
      rcases hex with ⟨y, hy, hych⟩
      rcases List.mem_cons.1 hy with rfl | hy'
      · rw [hfun] at hsolve
        exact absurd hych hsolve
      · refine ih vals (writeAt vals0 p.1 p.2 x) ?_ ⟨y, hy', hych⟩
        intro r c hrc
        rw [hfun, writeAt_ne _ _ _ _ _ _ hrc]

lemma tryOthers_all_fail (rank : Nat) (p : Nat × Nat) (original : Nat) :
    ∀ (L : List Nat) (vals vals0 : Vals),
      (∀ r c, ¬(r = p.1 ∧ c = p.2) → vals0 r c = vals r c) →
      L ≠ [] →
      (∀ x ∈ L, SolverPy.canSolve rank (writeAt vals p.1 p.2 x) = false) →
      ∃ y ∈ L, tryOthers rank p original L vals0 = writeAt vals p.1 p.2 y := by
  intro L
  induction L with
  | nil => intro vals vals0 _ hne _; exact absurd rfl hne
  | cons x rest ih =>
    intro vals vals0 hagree _ hfail
    rw [tryOthers]
    have hfun : writeAt vals0 p.1 p.2 x = writeAt vals p.1 p.2 x :=
      writeAt_eq_of_agree vals vals0 p x hagree
    have hx : SolverPy.canSolve rank (writeAt vals0 p.1 p.2 x) = false := by
      rw [hfun]
      exact hfail x (List.mem_cons_self _ _)
    rw [if_neg (by rw [hx]; exact Bool.false_ne_true)]
    by_cases hrest : rest = []
    · subst hrest
      exact ⟨x, List.mem_cons_self _ _, by rw [tryOthers, hfun]⟩
    · obtain ⟨y, hy, heq⟩ := ih vals (writeAt vals0 p.1 p.2 x)
        (by
          intro r c hrc
          rw [hfun, writeAt_ne _ _ _ _ _ _ hrc])
        hrest
        (fun z hz => hfail z (List.mem_cons_of_mem _ hz))
      exact ⟨y, List.mem_cons_of_mem _ hy, heq⟩

/-- C2 (amended): in the randomized pass, for a visited cell `p` with
original value `v`: if some other candidate makes the grid solvable, the
value is restored and the cutoff is untouched; if the cell has at least one
other candidate and none is solvable, the cell is cleared and the cutoff
decremented; but if the cell has no other candidate at all, the loop body
leaves both the cell and the cutoff unchanged. -/
theorem reduce_via_random_cell (rank : Nat) (vals : Vals) (cutoff : Nat) (p : Nat × Nat) :
    ((∃ x ∈ (possibles rank vals p).filter (fun x => x != vals p.1 p.2),
        SolverPy.canSolve rank (writeAt vals p.1 p.2 x) = true) →
      (∀ r c, (reduceRandomStep rank vals cutoff p).1 r c = vals r c) ∧
      (reduceRandomStep rank vals cutoff p).2 = cutoff) ∧
    (((possibles rank vals p).filter (fun x => x != vals p.1 p.2) ≠ [] ∧
      ∀ x ∈ (possibles rank vals p).filter (fun x => x != vals p.1 p.2),
        SolverPy.canSolve rank (writeAt vals p.1 p.2 x) = false) →
      (∀ r c, (reduceRandomStep rank vals cutoff p).1 r c =
        writeAt vals p.1 p.2 0 r c) ∧
      (reduceRandomStep rank vals cutoff p).2 = cutoff - 1) ∧
    ((possibles rank vals p).filter (fun x => x != vals p.1 p.2) = [] →
      (reduceRandomStep rank vals cutoff p).1 = vals ∧
      (reduceRandomStep rank vals cutoff p).2 = cutoff) := by
  refine ⟨?_, ?_, ?_⟩
  · intro hex
    have heq : tryOthers rank p (vals p.1 p.2)
        ((possibles rank vals p).filter (fun x => x != vals p.1 p.2)) vals =
        writeAt vals p.1 p.2 (vals p.1 p.2) :=
      tryOthers_restores rank p (vals p.1 p.2) _ vals vals (fun _ _ _ => rfl) hex
    have hstep : reduceRandomStep rank vals cutoff p =
        (writeAt vals p.1 p.2 (vals p.1 p.2), cutoff) := by
      simp only [reduceRandomStep]
      rw [heq, writeAt_self, if_neg (by simp)]
    constructor
    · intro r c
      rw [hstep]
      by_cases hp : r = p.1 ∧ c = p.2
      · rcases hp with ⟨rfl, rfl⟩
        exact writeAt_self _ _ _ _
      · exact writeAt_ne _ _ _ _ _ _ hp
    · rw [hstep]
  · rintro ⟨hne, hfail⟩
    obtain ⟨y, hy, heq⟩ := tryOthers_all_fail rank p (vals p.1 p.2) _ vals vals
      (fun _ _ _ => rfl) hne hfail
    have hyne : y ≠ vals p.1 p.2 := by
      have := (List.mem_filter.1 hy).2
      simpa using this
    have hstep : reduceRandomStep rank vals cutoff p =
        (writeAt vals p.1 p.2 0, cutoff - 1) := by
      simp only [reduceRandomStep]
      rw [heq, writeAt_self, if_pos hyne, writeAt_writeAt]
    constructor
    · intro r c
      rw [hstep]
    · rw [hstep]
  · intro hempty
    have hstep : reduceRandomStep rank vals cutoff p = (vals, cutoff) := by
      simp only [reduceRandomStep]
      rw [hempty]
      simp [tryOthers]
    exact ⟨by rw [hstep], by rw [hstep]⟩

/-- C2 counterexample to the claim as stated: on a complete rank-2 solution,
cell (0, 0) (value 2, a filled cell) has no candidate other than its value —
so no substitute value yields a solvable grid — yet the loop body leaves the
cell's value at 2 (not 0) and does not decrement the cutoff. -/
theorem reduce_via_random_cell_counterexample :
    (possibles 2 (ofList 2 demo4) (0, 0)).filter
      (fun x => x != ofList 2 demo4 0 0) = [] ∧
    ofList 2 demo4 0 0 = 2 ∧
    (reduceRandomStep 2 (ofList 2 demo4) 5 (0, 0)).1 0 0 = 2 ∧
    (reduceRandomStep 2 (ofList 2 demo4) 5 (0, 0)).2 = 5 := by
  exact ⟨by decide, by decide, by decide, by decide⟩

/-- Witness for C2 at a concrete input, exercising the restore branch: on
`cex1`, cell (2, 1) (value 2) has the single other candidate 1, and the
substituted grid is solvable, so the value is restored and the cutoff is
kept. -/
theorem reduce_via_random_cell_witness :
    (reduceRandomStep 2 (ofList 2 cex1) 5 (2, 1)).1 2 1 = ofList 2 cex1 2 1 ∧
    (reduceRandomStep 2 (ofList 2 cex1) 5 (2, 1)).2 = 5 :=
  ⟨((reduce_via_random_cell 2 (ofList 2 cex1) 5 (2, 1)).1
      ⟨1, by decide, by decide⟩).1 2 1,
   ((reduce_via_random_cell 2 (ofList 2 cex1) 5 (2, 1)).1
      ⟨1, by decide, by decide⟩).2⟩

/-! ## C3: the density heuristic -/

/-- C3: `get_density` divides with Python's floor division `//`, so on the
board `density10` — where exactly 10 of the 20 peers of cell (0, 0) are
filled — it returns 0, not the fraction 10/20 = 0.5 the spec describes
(its own docstring says "percentage" and its annotation says `float`).
Cell (0, 1), with 9 of its 20 peers filled, also gets density 0, so the
removal ordering cannot order these cells by their true filled-peer
fractions. -/
theorem get_density_floor_division :
    (context 3 ((0 : Nat), (0 : Nat))).length = 20 ∧
    ((context 3 ((0 : Nat), (0 : Nat))).filter
      (fun q => ofList 3 density10 q.1 q.2 != 0)).length = 10 ∧
    getDensity 3 (ofList 3 density10) (0, 0) = 0 ∧
    ((context 3 ((0 : Nat), (1 : Nat))).filter
      (fun q => ofList 3 density10 q.1 q.2 != 0)).length = 9 ∧
    getDensity 3 (ofList 3 density10) (0, 1) = 0 := by
  exact ⟨by decide, by decide, by decide, by decide, by decide⟩

/-! ## C9: cross-band and cross-stack swaps are rejected before mutation -/

/-- C9: a row swap across two bands (or a column swap across two stacks)
without the `allow_different_tiles` override raises and leaves every cell of
the board unchanged — the check precedes the swap loop. -/
theorem cross_band_swap_rejected (rank r1 r2 c1 c2 : Nat) (vals : Vals)
    (hrow : r1 / rank ≠ r2 / rank) (hcol : c1 / rank ≠ c2 / rank) :
    swapRowValues rank r1 r2 false vals =
      (some "Swapping rows from different tiles is not solution-preserving.", vals) ∧
    swapColValues rank c1 c2 false vals =
      (some "Swapping rows from different tiles is not solution-preserving.", vals) := by
  constructor
  · unfold swapRowValues
    rw [if_pos ⟨rfl, hrow⟩]
  · unfold swapColValues
    rw [if_pos ⟨rfl, hcol⟩]

/-- Witness for C9 at a concrete input. -/
theorem cross_band_swap_rejected_witness :
    swapRowValues 2 0 2 false (ofList 2 demo4) =
      (some "Swapping rows from different tiles is not solution-preserving.",
        ofList 2 demo4) ∧
    swapColValues 2 1 3 false (ofList 2 demo4) =
      (some "Swapping rows from different tiles is not solution-preserving.",
        ofList 2 demo4) :=
  cross_band_swap_rejected 2 0 2 1 3 (ofList 2 demo4) (by decide) (by decide)

/-! ## C10: the two constructors and the caller's list -/

lemma popBuild_spec : ∀ (cells : List (Nat × Nat)) (nums : List Nat),
    cells.length ≤ nums.length →
    BoardPy.popBuild cells nums = some (nums.take cells.length, nums.drop cells.length) := by
  intro cells
  induction cells with
  | nil => intro nums _; simp [BoardPy.popBuild]
  | cons c cells ih =>
    intro nums hlen
    cases nums with
    | nil => simp at hlen
    | cons v nums =>
      rw [BoardPy.popBuild, ih nums (by simpa using hlen)]
      simp

lemma rowMajor_length (rank : Nat) : (rowMajor rank).length = size rank := by
  simp only [rowMajor, List.length_flatten, List.map_map]
  have : ((List.range (side rank)).map
      (List.length ∘ fun r => (List.range (side rank)).map (fun c => (r, c)))) =
      (List.range (side rank)).map (fun _ => side rank) := by
    apply List.map_congr_left
    intro r _
    simp
  rw [this, List.map_const', List.sum_replicate, List.length_range, smul_eq_mul, size]

lemma indexBuild_getD : ∀ (cells : List (Nat × Nat)) (i : Nat) (nums : List Nat),
    BoardPy.indexBuild cells i nums =
      (List.range cells.length).map (fun k => nums.getD (i + k) 0) := by
  intro cells
  induction cells with
  | nil => intro i nums; simp [BoardPy.indexBuild]
  | cons c cells ih =>
    intro i nums
    rw [BoardPy.indexBuild, ih (i + 1) nums, List.length_cons,
      List.range_succ_eq_map, List.map_cons, List.map_map]
    refine congrArg₂ _ (by rw [Nat.add_zero]) ?_
    apply List.map_congr_left
    intro k _
    simp only [Function.comp]
    exact congrArg (fun n => nums.getD n 0) (by omega)

lemma getD_range_self : ∀ (l : List Nat),
    (List.range l.length).map (fun k => l.getD k 0) = l := by
  intro l
  induction l with
  | nil => simp
  | cons a l ih =>
    rw [List.length_cons, List.range_succ_eq_map, List.map_cons, List.map_map]
    refine congrArg₂ _ rfl ?_
    rw [show ((fun k => (a :: l).getD k 0) ∘ Nat.succ) = (fun k => l.getD k 0) from ?_, ih]
    funext k
    simp [List.getD]

lemma mkBoardVariant_ok (values : List Nat) (rk : Nat)
    (hrk : BoardPy.lenRank values.length = rk) (hrk0 : rk ≠ 0)
    (hlen : values.length = size rk)
    (hb : ∀ v ∈ values, v ≤ side rk) :
    BoardPy.mkBoardVariant values = .ok (values, values) := by
  unfold BoardPy.mkBoardVariant
  rw [hrk, if_neg hrk0, if_neg (by
      rw [Bool.not_eq_true, List.any_eq_false]
      intro v hv
      simpa using Nat.not_lt.2 (hb v hv)),
    indexBuild_getD, rowMajor_length, ← hlen]
  simp only [Nat.zero_add]
  rw [getD_range_self]

/-- C10: successfully constructing a `Board.py` board from a non-empty
`numbers` list consumes the caller's entire list (one `pop(0)` per cell,
leaving `[]`), while the `board.py` variant reads the list by index and
returns with the caller's list unchanged. -/
theorem board_ctor_list_effects (rank : Nat) (numbers values : List Nat)
    (hrank : rank = 2 ∨ rank = 3 ∨ rank = 4)
    (hlen : numbers.length = size rank)
    (hrange : ∀ v ∈ numbers, v ≤ side rank)
    (hv : (values.length = 16 ∧ ∀ v ∈ values, v ≤ 4) ∨
      (values.length = 81 ∧ ∀ v ∈ values, v ≤ 9) ∨
      (values.length = 256 ∧ ∀ v ∈ values, v ≤ 16)) :
    BoardPy.mkBoardPy rank numbers = .ok (numbers, []) ∧
    BoardPy.mkBoardVariant values = .ok (values, values) := by
  have hsize : 0 < size rank := by
    rcases hrank with rfl | rfl | rfl <;> decide
  constructor
  · have hne : numbers ≠ [] := by
      intro h
      rw [h] at hlen
      simp at hlen
      omega
    unfold BoardPy.mkBoardPy
    rw [if_neg (not_not_intro hrank), if_neg hne, if_neg (by simpa using hlen),
      if_neg (by
        rw [Bool.not_eq_true, List.any_eq_false]
        intro v hvmem
        simpa using Nat.not_lt.2 (hrange v hvmem)),
      popBuild_spec (rowMajor rank) numbers (by rw [rowMajor_length, hlen]),
      rowMajor_length, ← hlen, List.take_length, List.drop_length]
  · rcases hv with ⟨hl, hb⟩ | ⟨hl, hb⟩ | ⟨hl, hb⟩
    · exact mkBoardVariant_ok values 2 (by rw [hl]; decide) (by decide) (by rw [hl]; decide)
        (fun v hv => by have := hb v hv; simp [side]; omega)
    · exact mkBoardVariant_ok values 3 (by rw [hl]; decide) (by decide) (by rw [hl]; decide)
        (fun v hv => by have := hb v hv; simp [side]; omega)
    · exact mkBoardVariant_ok values 4 (by rw [hl]; decide) (by decide) (by rw [hl]; decide)
        (fun v hv => by have := hb v hv; simp [side]; omega)

/-- Witness for C10 at a concrete input. -/
theorem board_ctor_list_effects_witness :
    BoardPy.mkBoardPy 2 demo4 = .ok (demo4, []) ∧
    BoardPy.mkBoardVariant demo4 = .ok (demo4, demo4) :=
  board_ctor_list_effects 2 demo4 demo4 (by decide) (by decide) (by decide)
    (by left; exact ⟨by decide, by decide⟩)

/-! ## C8: solving never mutates the caller's grid -/

lemma getD_map_range {α : Type} (g : Nat → α) (n r : Nat) (d : α) (h : r < n) :
    ((List.range n).map g).getD r d = g r := by
  rw [List.getD_eq_getElem?_getD, List.getElem?_map]
  simp [List.getElem?_range, h]

lemma getD_flatten_const {α : Type} (d : α) :
    ∀ (L : List (List α)) (k i j : Nat), (∀ l ∈ L, l.length = k) → j < k →
      L.flatten.getD (i * k + j) d = (L.getD i []).getD j d := by
  intro L
  induction L with
  | nil => intro k i j _ _; simp [List.getD]
  | cons l L ih =>
    intro k i j hk hj
    have hlen : l.length = k := hk l (List.mem_cons_self _ _)
    cases i with
    | zero =>
      rw [List.flatten_cons, Nat.zero_mul, Nat.zero_add,
        List.getD_append _ _ _ _ (by rw [hlen]; exact hj)]
      simp [List.getD]
    | succ i =>
      rw [List.flatten_cons,
        show (i + 1) * k + j = l.length + (i * k + j) from by rw [hlen]; ring,
        List.getD_append_right _ _ _ _ (Nat.le_add_right _ _), Nat.add_sub_cancel_left,
        ih k i j (fun x hx => hk x (List.mem_cons_of_mem _ hx)) hj]
      simp [List.getD]

lemma copyVals_eq (rank : Nat) (vals : Vals) (r c : Nat) (hr : r < side rank)
    (hc : c < side rank) : SolverPy.copyVals rank vals r c = vals r c := by
  unfold SolverPy.copyVals ofList
  have hmap : (rowMajor rank).map (fun p => vals p.1 p.2) =
      ((List.range (side rank)).map (fun r' =>
        (List.range (side rank)).map (fun c' => vals r' c'))).flatten := by
    rw [rowMajor, List.map_flatten, List.map_map]
    refine congrArg List.flatten (List.map_congr_left ?_)
    intro r' _
    simp [List.map_map]
  rw [hmap, getD_flatten_const 0 _ (side rank) r c ?_ hc]
  · rw [getD_map_range _ _ _ _ hr, getD_map_range _ _ _ _ hc]
  · intro l hl
    rcases List.mem_map.1 hl with ⟨r', _, rfl⟩
    simp

lemma canSolveGoPair_caller (rank : Nat) (empties : List (Nat × Nat)) :
    ∀ (fuel : Nat) (caller vals : Vals) (index : Nat) (res : Bool × Vals × Vals),
      SolverPy.canSolveGoPair rank empties fuel caller vals index = some res →
      res.2.1 = caller := by
  intro fuel
  induction fuel with
  | zero => intro caller vals index res h; cases h
  | succ fuel ih =>
    intro caller vals index res h
    rw [SolverPy.canSolveGoPair] at h
    by_cases hidx : index < empties.length
    · rw [dif_pos hidx] at h
      simp only [] at h
      split at h
      · split at h
        · rw [← Option.some.inj h]
        · exact ih caller vals (index - 1) res h
      · exact ih caller _ (index + 1) res h
    · rw [dif_neg hidx] at h
      rw [← Option.some.inj h]

/-- C8: `Solver.__init__` copies the board (`board.copy()` builds a new
board from the listed cell values, and the copy agrees with the original on
every cell), and the `can_solve` loop writes only to that copy: whatever the
run returns, the caller's board is unchanged. -/
theorem solver_keeps_caller_board (rank : Nat) (caller : Vals) :
    (∀ res, SolverPy.runCanSolve rank caller = some res → res.2.1 = caller) ∧
    (∀ r c, r < side rank → c < side rank →
      SolverPy.copyVals rank caller r c = caller r c) := by
  constructor
  · intro res h
    exact canSolveGoPair_caller rank _ _ caller _ 0 res h
  · intro r c hr hc
    exact copyVals_eq rank caller r c hr hc

/-- Witness for C8 at a concrete input. -/
theorem solver_keeps_caller_board_witness :
    SolverPy.copyVals 2 (ofList 2 demo4) 1 2 = ofList 2 demo4 1 2 :=
  (solver_keeps_caller_board 2 (ofList 2 demo4)).2 1 2 (by decide) (by decide)

/-! ## C1: the backtracking solver misses a solution -/

/-- C1: on the grid `cex1` the `Solver.py` backtracker terminates with
`False`, although `cex1` extends to the valid solution `demo4` (the third
conjunct checks that `demo4` agrees with `cex1` on every filled cell).  The
loop never resets a cell's value to 0 when backtracking, so the stale trial
value `4` left in cell (0, 1) blocks the branch that assigns 2 to (0, 0)
and 1 to (0, 1). -/
theorem can_solve_misses_solution :
    SolverPy.canSolveGo 2 (emptiesOf 2 (ofList 2 cex1))
      (SolverPy.solverFuel 2 (ofList 2 cex1)) (ofList 2 cex1) 0 = some false ∧
    SolverPy.canSolve 2 (ofList 2 cex1) = false ∧
    isSolutionB 2 (ofList 2 demo4) = true ∧
    (∀ p ∈ rowMajor 2, ofList 2 cex1 p.1 p.2 ≠ 0 →
      ofList 2 demo4 p.1 p.2 = ofList 2 cex1 p.1 p.2) := by
  exact ⟨by decide, by decide, by decide, by decide⟩

/-! ## The Norvig-style solver (`Sudoku/norvig_solver.py`)

Squares are indexed 0..size-1 in row-major order (the source labels them
with row/column character pairs; the labels enumerate in exactly this
order).  Candidate strings become lists of digits 1..side; `replace(d, "")`
becomes a filter.  Every recursive call consumes one unit of fuel; the
Python code has no such bound, so a `none` result means contradiction or
fuel exhaustion, and theorems about failure are stated for every fuel. -/

namespace Norvig

/-- A propagation state: each square's remaining candidate digits. -/
abbrev NState := Nat → List Nat

/-- `self.digits`, as digits 1..side. -/
def digitsN (rank : Nat) : List Nat := List.range' 1 (side rank)

/-- Replace square `s`'s candidate list. -/
def updState (st : NState) (s : Nat) (l : List Nat) : NState :=
  fun t => if t = s then l else st t

/-- The row index of a square. -/
def sqRow (rank s : Nat) : Nat := s / side rank

/-- The column index of a square. -/
def sqCol (rank s : Nat) : Nat := s % side rank

/-- `self.peers[s]`: the squares sharing a column, row or box with `s`,
excluding `s` (a set in the source; here its members in ascending order). -/
def peersN (rank : Nat) (s : Nat) : List Nat :=
  (List.range (size rank)).filter
    (fun q => q != s && sameUnitB rank (sqRow rank s, sqCol rank s) (sqRow rank q, sqCol rank q))

/-- The column unit through column `c` (rows ascending, as `cross` builds it). -/
def colUnit (rank c : Nat) : List Nat :=
  (List.range (side rank)).map (fun r => r * side rank + c)

/-- The row unit through row `r`. -/
def rowUnit (rank r : Nat) : List Nat :=
  (List.range (side rank)).map (fun c => r * side rank + c)

/-- The box unit of the box at (box row `br`, box column `bc`). -/
def boxUnit (rank br bc : Nat) : List Nat :=
  ((List.range rank).map (fun i =>
    (List.range rank).map (fun j =>
      (br * rank + i) * side rank + (bc * rank + j)))).flatten

/-- `self.units[s]`: the units containing `s`, in `unit_list` order
(columns, then rows, then boxes). -/
def unitsN (rank : Nat) (s : Nat) : List (List Nat) :=
  [colUnit rank (sqCol rank s), rowUnit rank (sqRow rank s),
   boxUnit rank (sqRow rank s / rank) (sqCol rank s / rank)]

mutual

/-- `Solver.eliminate`: remove `d` from `values[s]` and propagate the naked-
and hidden-single rules; `none` is a detected contradiction (or exhausted
fuel). -/
def eliminateN (rank : Nat) : Nat → NState → Nat → Nat → Option NState
  | 0, _, _, _ => none
  | fuel + 1, values, s, d =>
    if d ∈ values s then
      match h : (values s).filter (fun x => x ≠ d) with
      | [] => none
      | [d2] =>
        match elimListN rank fuel (updState values s ((values s).filter (fun x => x ≠ d)))
            d2 (peersN rank s) with
        | none => none
        | some values2 => unitsLoopN rank fuel values2 d (unitsN rank s)
      | _ :: _ :: _ =>
        unitsLoopN rank fuel (updState values s ((values s).filter (fun x => x ≠ d)))
          d (unitsN rank s)
    else some values
termination_by structural fuel values s d => fuel

/-- The `all(self.eliminate(values, s2, d2) for s2 in ...)` loop: eliminate
one digit from each listed square, failing fast. -/
def elimListN (rank : Nat) : Nat → NState → Nat → List Nat → Option NState
  | 0, _, _, _ => none
  | _ + 1, values, _, [] => some values
  | fuel + 1, values, d, s2 :: rest =>
    match eliminateN rank fuel values s2 d with
    | none => none
    | some v => elimListN rank fuel v d rest
termination_by structural fuel values d L => fuel

/-- The `for u in self.units[s]` loop of `eliminate` (hidden singles). -/
def unitsLoopN (rank : Nat) : Nat → NState → Nat → List (List Nat) → Option NState
  | 0, _, _, _ => none
  | _ + 1, values, _, [] => some values
  | fuel + 1, values, d, u :: us =>
    match u.filter (fun s2 => d ∈ values s2) with
    | [] => none
    | [s3] =>
      match assignN rank fuel values s3 d with
      | none => none
      | some v => unitsLoopN rank fuel v d us
    | _ :: _ :: _ => unitsLoopN rank fuel values d us
termination_by structural fuel values d us => fuel

/-- `Solver.assign`: eliminate every candidate of `s` other than `d`. -/
def assignN (rank : Nat) : Nat → NState → Nat → Nat → Option NState
  | 0, _, _, _ => none
  | fuel + 1, values, s, d =>
    elimSeqN rank fuel values s ((values s).filter (fun x => x ≠ d))
termination_by structural fuel values s d => fuel

/-- The `all(self.eliminate(values, s, d2) for d2 in other_values)` loop. -/
def elimSeqN (rank : Nat) : Nat → NState → Nat → List Nat → Option NState
  | 0, _, _, _ => none
  | _ + 1, values, _, [] => some values
  | fuel + 1, values, s, d2 :: rest =>
    match eliminateN rank fuel values s d2 with
    | none => none
    | some v => elimSeqN rank fuel v s rest
termination_by structural fuel values s L => fuel

end

/-- The assignment loop of `Solver.parse_grid` over the listed squares:
assign each prefilled (1..side) grid value through `assign`. -/
def parseListN (rank fuel : Nat) (vals : Vals) : List Nat → NState → Option NState
  | [], values => some values
  | s :: rest, values =>
    if 1 ≤ vals (sqRow rank s) (sqCol rank s) ∧
        vals (sqRow rank s) (sqCol rank s) ≤ side rank then
      match assignN rank fuel values s (vals (sqRow rank s) (sqCol rank s)) with
      | none => none
      | some v => parseListN rank fuel vals rest v
    else parseListN rank fuel vals rest values

/-- `Solver.parse_grid` on a well-formed board (cell values in 0..side):
start with every square mapped to all digits, then assign the prefilled
values in square order; `none` is the `{}` failure. -/
def parseGridN (rank fuel : Nat) (vals : Vals) : Option NState :=
  parseListN rank fuel vals (List.range (size rank)) (fun _ => digitsN rank)

/-- `all(len(self.values[s]) == 1 for s in self.squares)`. -/
def allSingleton (rank : Nat) (values : NState) : Bool :=
  (List.range (size rank)).all (fun s => (values s).length = 1)

mutual

/-- `Solver.search`: depth-first search with the fewest-candidates-first
heuristic (ties to the smaller square, as the `min` on (length, square)
pairs resolves them). -/
def searchN (rank : Nat) : Nat → NState → Option NState
  | 0, _ => none
  | fuel + 1, values =>
    if allSingleton rank values then some values
    else
      match (List.range (size rank)).filter (fun s => 1 < (values s).length) with
      | [] => none
      | c :: cs =>
        searchFirstN rank fuel values
          ((c :: cs).foldl
            (fun best s2 =>
              if (values s2).length < (values best).length then s2 else best) c)
          (values ((c :: cs).foldl
            (fun best s2 =>
              if (values s2).length < (values best).length then s2 else best) c))

/-- The `next(filter(len, (search(assign(values.copy(), s, d)) ...)))`
generator: try the candidates of the chosen square in order and return the
first successful sub-search. -/
def searchFirstN (rank : Nat) : Nat → NState → Nat → List Nat → Option NState
  | 0, _, _, _ => none
  | _ + 1, _, _, [] => none
  | fuel + 1, values, s, d :: ds =>
    match assignN rank fuel values s d with
    | none => searchFirstN rank fuel values s ds
    | some v =>
      match searchN rank fuel v with
      | none => searchFirstN rank fuel values s ds
      | some w => some w

end

/-- `Solver.can_solve`: search from the parsed state; a failed parse
(`values = {}`) makes `search` return `{}` at once, so the answer is
`False` with no search branching. -/
def canSolveN (rank fuel : Nat) (vals : Vals) : Bool :=
  match parseGridN rank fuel vals with
  | none => false
  | some values =>
    match searchN rank fuel values with
    | none => false
    | some _ => true

/-- `Solver.is_solution` of `norvig_solver.py`:
`all(len(self.values[s]) == 1 for s in self.squares)`, where `self.values`
is the candidate state `parse_grid` built at construction — the test reads
the propagated state, never the grid's cell values.  When the parse failed,
`self.values` is `{}` and the first `self.values[s]` lookup raises
`KeyError`; that exceptional path is the `none` result. -/
def isSolutionN (rank fuel : Nat) (vals : Vals) : Option Bool :=
  match parseGridN rank fuel vals with
  | none => none
  | some values => some (allSingleton rank values)

end Norvig

namespace Norvig

lemma updState_self (st : NState) (s : Nat) (l : List Nat) : updState st s l s = l := by
  simp [updState]

lemma updState_ne (st : NState) (s : Nat) (l : List Nat) (t : Nat) (h : t ≠ s) :
    updState st s l t = st t := by
  simp [updState, h]

/-- Monotonicity: on success, every square's candidate list is a sublist of
what it was (candidates are only ever removed). -/
lemma nvMono (rank : Nat) : ∀ fuel : Nat,
    (∀ values s d w, eliminateN rank fuel values s d = some w →
      ∀ t, List.Sublist (w t) (values t)) ∧
    (∀ values d L w, elimListN rank fuel values d L = some w →
      ∀ t, List.Sublist (w t) (values t)) ∧
    (∀ values d us w, unitsLoopN rank fuel values d us = some w →
      ∀ t, List.Sublist (w t) (values t)) ∧
    (∀ values s d w, assignN rank fuel values s d = some w →
      ∀ t, List.Sublist (w t) (values t)) ∧
    (∀ values s L w, elimSeqN rank fuel values s L = some w →
      ∀ t, List.Sublist (w t) (values t)) := by
  intro fuel
  induction fuel with
  | zero =>
    refine ⟨?_, ?_, ?_, ?_, ?_⟩
    · intro values a b w h; simp [eliminateN] at h
    · intro values a b w h; simp [elimListN] at h
    · intro values a b w h; simp [unitsLoopN] at h
    · intro values a b w h; simp [assignN] at h
    · intro values a b w h; simp [elimSeqN] at h
  | succ fuel ih =>
    obtain ⟨ihE, ihL, ihU, ihA, ihS⟩ := ih
    have hupd : ∀ (values : NState) (s : Nat) (l : List Nat) (t : Nat),
        List.Sublist l (values s) → List.Sublist (updState values s l t) (values t) := by
      intro values s l t hsub
      by_cases hts : t = s
      · subst hts
        rw [updState_self]
        exact hsub
      · rw [updState_ne _ _ _ _ hts]
    refine ⟨?_, ?_, ?_, ?_, ?_⟩
    · intro values s d w h
      simp only [eliminateN] at h
      by_cases hmem : d ∈ values s
      · rw [if_pos hmem] at h
        split at h
        · cases h
        · rename_i d2 hfe
          split at h
          · cases h
          · rename_i values2 helim
            intro t
            refine ((ihU _ _ _ _ h t).trans ((ihL _ _ _ _ helim t).trans ?_))
            exact hupd values s _ t (List.filter_sublist _)
        · intro t
          refine (ihU _ _ _ _ h t).trans ?_
          exact hupd values s _ t (List.filter_sublist _)
      · rw [if_neg hmem] at h
        rw [← Option.some.inj h]
        intro t
        exact List.Sublist.refl _
    · intro values d L w h
      match L, h with
      | [], h =>
        simp only [elimListN, Option.some.injEq] at h
        subst h
        exact fun t => List.Sublist.refl _
      | s2 :: rest, h =>
        simp only [elimListN] at h
        split at h
        · cases h
        · rename_i v helimv
          intro t
          exact (ihL _ _ _ _ h t).trans (ihE _ _ _ _ helimv t)
    · intro values d us w h
      match us, h with
      | [], h =>
        simp only [unitsLoopN, Option.some.injEq] at h
        subst h
        exact fun t => List.Sublist.refl _
      | u :: us, h =>
        simp only [unitsLoopN] at h
        split at h
        · cases h
        · split at h
          · cases h
          · rename_i v hassign
            intro t
            exact (ihU _ _ _ _ h t).trans (ihA _ _ _ _ hassign t)
        · intro t
          exact ihU _ _ _ _ h t
    · intro values s d w h
      simp only [assignN] at h
      intro t
      exact ihS _ _ _ _ h t
    · intro values s L w h
      match L, h with
      | [], h =>
        simp only [elimSeqN, Option.some.injEq] at h
        subst h
        exact fun t => List.Sublist.refl _
      | d2 :: rest, h =>
        simp only [elimSeqN] at h
        split at h
        · cases h
        · rename_i v helimv
          intro t
          exact (ihS _ _ _ _ h t).trans (ihE _ _ _ _ helimv t)

/-- No live state maps a square to the empty candidate list: the emptying
elimination returns the contradiction marker instead. -/
lemma nvNoEmpty (rank : Nat) : ∀ fuel : Nat,
    (∀ values s d w, (∀ t, values t ≠ []) → eliminateN rank fuel values s d = some w →
      ∀ t, w t ≠ []) ∧
    (∀ values d L w, (∀ t, values t ≠ []) → elimListN rank fuel values d L = some w →
      ∀ t, w t ≠ []) ∧
    (∀ values d us w, (∀ t, values t ≠ []) → unitsLoopN rank fuel values d us = some w →
      ∀ t, w t ≠ []) ∧
    (∀ values s d w, (∀ t, values t ≠ []) → assignN rank fuel values s d = some w →
      ∀ t, w t ≠ []) ∧
    (∀ values s L w, (∀ t, values t ≠ []) → elimSeqN rank fuel values s L = some w →
      ∀ t, w t ≠ []) := by
  intro fuel
  induction fuel with
  | zero =>
    refine ⟨?_, ?_, ?_, ?_, ?_⟩
    · intro values a b w _ h; simp [eliminateN] at h
    · intro values a b w _ h; simp [elimListN] at h
    · intro values a b w _ h; simp [unitsLoopN] at h
    · intro values a b w _ h; simp [assignN] at h
    · intro values a b w _ h; simp [elimSeqN] at h
  | succ fuel ih =>
    obtain ⟨ihE, ihL, ihU, ihA, ihS⟩ := ih
    refine ⟨?_, ?_, ?_, ?_, ?_⟩
    · intro values s d w hne h
      simp only [eliminateN] at h
      by_cases hmem : d ∈ values s
      · rw [if_pos hmem] at h
        split at h
        · cases h
        · rename_i d2 hfe
          split at h
          · cases h
          · rename_i values2 helim
            have hne1 : ∀ t, updState values s ((values s).filter (fun x => x ≠ d)) t ≠ [] := by
              intro t
              by_cases hts : t = s
              · subst hts
                rw [updState_self, hfe]
                exact List.cons_ne_nil _ _
              · rw [updState_ne _ _ _ _ hts]
                exact hne t
            exact ihU _ _ _ _ (ihL _ _ _ _ hne1 helim) h
        · rename_i a b tl hfe
          have hne1 : ∀ t, updState values s ((values s).filter (fun x => x ≠ d)) t ≠ [] := by
            intro t
            by_cases hts : t = s
            · subst hts
              rw [updState_self, hfe]
              exact List.cons_ne_nil _ _
            · rw [updState_ne _ _ _ _ hts]
              exact hne t
          exact ihU _ _ _ _ hne1 h
      · rw [if_neg hmem] at h
        rw [← Option.some.inj h]
        exact hne
    · intro values d L w hne h
      match L, h with
      | [], h =>
        simp only [elimListN, Option.some.injEq] at h
        subst h
        exact hne
      | s2 :: rest, h =>
        simp only [elimListN] at h
        split at h
        · cases h
        · rename_i v helimv
          exact ihL _ _ _ _ (ihE _ _ _ _ hne helimv) h
    · intro values d us w hne h
      match us, h with
      | [], h =>
        simp only [unitsLoopN, Option.some.injEq] at h
        subst h
        exact hne
      | u :: us, h =>
        simp only [unitsLoopN] at h
        split at h
        · cases h
        · split at h
          · cases h
          · rename_i v hassign
            exact ihU _ _ _ _ (ihA _ _ _ _ hne hassign) h
        · exact ihU _ _ _ _ hne h
    · intro values s d w hne h
      simp only [assignN] at h
      exact ihS _ _ _ _ hne h
    · intro values s L w hne h
      match L, h with
      | [], h =>
        simp only [elimSeqN, Option.some.injEq] at h
        subst h
        exact hne
      | d2 :: rest, h =>
        simp only [elimSeqN] at h
        split at h
        · cases h
        · rename_i v helimv
          exact ihS _ _ _ _ (ihE _ _ _ _ hne helimv) h

/-- Postconditions of the elimination loops: an eliminated digit is gone
from the square, and stays gone. -/
lemma nvPost (rank : Nat) : ∀ fuel : Nat,
    (∀ values s d w, eliminateN rank fuel values s d = some w → d ∉ w s) ∧
    (∀ values d L w, elimListN rank fuel values d L = some w → ∀ s2 ∈ L, d ∉ w s2) ∧
    (∀ values s L w, elimSeqN rank fuel values s L = some w → ∀ d2 ∈ L, d2 ∉ w s) := by
  intro fuel
  induction fuel with
  | zero =>
    refine ⟨?_, ?_, ?_⟩
    · intro values a b w h; simp [eliminateN] at h
    · intro values a b w h; simp [elimListN] at h
    · intro values a b w h; simp [elimSeqN] at h
  | succ fuel ih =>
    obtain ⟨ihE, ihL, ihS⟩ := ih
    have hfilter : ∀ (l : List Nat) (d : Nat), d ∉ l.filter (fun x => x ≠ d) := by
      intro l d hd
      have := (List.mem_filter.1 hd).2
      simp at this
    refine ⟨?_, ?_, ?_⟩
    · intro values s d w h
      simp only [eliminateN] at h
      by_cases hmem : d ∈ values s
      · rw [if_pos hmem] at h
        split at h
        · cases h
        · rename_i d2 hfe
          split at h
          · cases h
          · rename_i values2 helim
            intro hd
            have hsub1 : List.Sublist (w s) (values2 s) := (nvMono rank fuel).2.2.1 _ _ _ _ h s
            have hsub2 : List.Sublist (values2 s)
                (updState values s ((values s).filter (fun x => x ≠ d)) s) :=
              (nvMono rank fuel).2.1 _ _ _ _ helim s
            rw [updState_self] at hsub2
            exact hfilter (values s) d (hsub2.subset (hsub1.subset hd))
        · intro hd
          have hsub1 : List.Sublist (w s)
              (updState values s ((values s).filter (fun x => x ≠ d)) s) :=
            (nvMono rank fuel).2.2.1 _ _ _ _ h s
          rw [updState_self] at hsub1
          exact hfilter (values s) d (hsub1.subset hd)
      · rw [if_neg hmem] at h
        rw [← Option.some.inj h]
        exact hmem
    · intro values d L w h
      match L, h with
      | [], h => exact fun s2 hs2 => absurd hs2 (List.not_mem_nil s2)
      | s2 :: rest, h =>
        simp only [elimListN] at h
        split at h
        · cases h
        · rename_i v helimv
          intro s3 hs3
          rcases List.mem_cons.1 hs3 with rfl | hs3'
          · have := ihE _ _ _ _ helimv
            intro hd
            exact this (((nvMono rank fuel).2.1 _ _ _ _ h s3).subset hd)
          · exact ihL _ _ _ _ h s3 hs3'
    · intro values s L w h
      match L, h with
      | [], h => exact fun d2 hd2 => absurd hd2 (List.not_mem_nil d2)
      | d2 :: rest, h =>
        simp only [elimSeqN] at h
        split at h
        · cases h
        · rename_i v helimv
          intro d3 hd3
          rcases List.mem_cons.1 hd3 with rfl | hd3'
          · have := ihE _ _ _ _ helimv
            intro hd
            exact this (((nvMono rank fuel).2.2.2.2 _ _ _ _ h s).subset hd)
          · exact ihS _ _ _ _ h d3 hd3'

end Norvig

/-- A rank-2 grid with the duplicate value 3 twice in row 0. -/
def dup4 : List Nat :=
  [3, 3, 0, 0,
   0, 0, 0, 0,
   0, 0, 0, 0,
   0, 0, 0, 0]

/-! ## C6: a duplicate among peers is rejected during the assignment pass -/

/-- Sharing a row, a column or a tile is a symmetric relation. -/
lemma sameUnitB_symm (rank : Nat) (p q : Nat × Nat) :
    sameUnitB rank q p = true ↔ sameUnitB rank p q = true := by
  simp only [sameUnitB, Bool.or_eq_true, beq_iff_eq]
  constructor
  · rintro ((h | h) | h)
    · exact Or.inl (Or.inl h.symm)
    · exact Or.inl (Or.inr h.symm)
    · exact Or.inr h.symm
  · rintro ((h | h) | h)
    · exact Or.inl (Or.inl h.symm)
    · exact Or.inl (Or.inr h.symm)
    · exact Or.inr h.symm

namespace Norvig

lemma nodup_digitsN (rank : Nat) : (digitsN rank).Nodup := List.nodup_range' ..

lemma length_digitsN (rank : Nat) : (digitsN rank).length = side rank := by
  simp [digitsN]

/-- Composing two propagation phases preserves the transitional cleanliness
property: any square newly reduced to a singleton `[e]` has had `e` removed
from all its peers. -/
lemma transClean_comp (rank : Nat) (values v w : NState)
    (h1 : ∀ t e, v t = [e] → values t ≠ [e] → ∀ p ∈ peersN rank t, e ∉ v p)
    (hmono : ∀ t, List.Sublist (w t) (v t))
    (h2 : ∀ t e, w t = [e] → v t ≠ [e] → ∀ p ∈ peersN rank t, e ∉ w p) :
    ∀ t e, w t = [e] → values t ≠ [e] → ∀ p ∈ peersN rank t, e ∉ w p := by
  intro t e hw hval p hp hmem
  by_cases hv : v t = [e]
  · exact h1 t e hv hval p hp ((hmono p).subset hmem)
  · exact h2 t e hw hv p hp hmem

/-- The elimination/assignment procedures keep the peer invariant in
transit: on success, every square whose candidate list became the singleton
`[e]` during the call has `e` eliminated from each of its peers (this is
the `len == 1` branch of `eliminate` doing its propagation). -/
lemma nvTrans (rank : Nat) : ∀ fuel : Nat,
    (∀ values s d w, eliminateN rank fuel values s d = some w →
      ∀ t e, w t = [e] → values t ≠ [e] → ∀ p ∈ peersN rank t, e ∉ w p) ∧
    (∀ values d L w, elimListN rank fuel values d L = some w →
      ∀ t e, w t = [e] → values t ≠ [e] → ∀ p ∈ peersN rank t, e ∉ w p) ∧
    (∀ values d us w, unitsLoopN rank fuel values d us = some w →
      ∀ t e, w t = [e] → values t ≠ [e] → ∀ p ∈ peersN rank t, e ∉ w p) ∧
    (∀ values s d w, assignN rank fuel values s d = some w →
      ∀ t e, w t = [e] → values t ≠ [e] → ∀ p ∈ peersN rank t, e ∉ w p) ∧
    (∀ values s L w, elimSeqN rank fuel values s L = some w →
      ∀ t e, w t = [e] → values t ≠ [e] → ∀ p ∈ peersN rank t, e ∉ w p) := by
  intro fuel
  induction fuel with
  | zero =>
    refine ⟨?_, ?_, ?_, ?_, ?_⟩
    · intro values a b w h; simp [eliminateN] at h
    · intro values a b w h; simp [elimListN] at h
    · intro values a b w h; simp [unitsLoopN] at h
    · intro values a b w h; simp [assignN] at h
    · intro values a b w h; simp [elimSeqN] at h
  | succ fuel ih =>
    obtain ⟨ihE, ihL, ihU, ihA, ihS⟩ := ih
    refine ⟨?_, ?_, ?_, ?_, ?_⟩
    · intro values s d w h
      simp only [eliminateN] at h
      by_cases hdm : d ∈ values s
      · rw [if_pos hdm] at h
        split at h
        · cases h
        · rename_i d2 hfe
          split at h
          · cases h
          · rename_i values2 helim
            intro t e hw hval p hp hmem
            by_cases hv2 : values2 t = [e]
            · by_cases hv1 : updState values s ((values s).filter (fun x => x ≠ d)) t = [e]
              · by_cases hts : t = s
                · subst hts
                  rw [updState_self, hfe] at hv1
                  injection hv1 with hed htl
                  subst hed
                  exact (nvPost rank fuel).2.1 _ _ _ _ helim p hp
                    (((nvMono rank fuel).2.2.1 _ _ _ _ h p).subset hmem)
                · rw [updState_ne _ _ _ _ hts] at hv1
                  exact hval hv1
              · exact ihL _ _ _ _ helim t e hv2 hv1 p hp
                  (((nvMono rank fuel).2.2.1 _ _ _ _ h p).subset hmem)
            · exact ihU _ _ _ _ h t e hw hv2 p hp hmem
        · rename_i x y tl hfe
          intro t e hw hval p hp hmem
          by_cases hv1 : updState values s ((values s).filter (fun x => x ≠ d)) t = [e]
          · by_cases hts : t = s
            · subst hts
              rw [updState_self, hfe] at hv1
              simp at hv1
            · rw [updState_ne _ _ _ _ hts] at hv1
              exact hval hv1
          · exact ihU _ _ _ _ h t e hw hv1 p hp hmem
      · rw [if_neg hdm] at h
        have hvw := Option.some.inj h
        intro t e hw hval p hp hmem
        rw [← hvw] at hw
        exact hval hw
    · intro values d L w h
      match L, h with
      | [], h =>
        simp only [elimListN, Option.some.injEq] at h
        subst h
        intro t e hw hval
        exact absurd hw hval
      | s2 :: rest, h =>
        simp only [elimListN] at h
        split at h
        · cases h
        · rename_i v helimv
          exact transClean_comp rank values v w (ihE _ _ _ _ helimv)
            (fun t => (nvMono rank fuel).2.1 _ _ _ _ h t) (ihL _ _ _ _ h)
    · intro values d us w h
      match us, h with
      | [], h =>
        simp only [unitsLoopN, Option.some.injEq] at h
        subst h
        intro t e hw hval
        exact absurd hw hval
      | u :: us, h =>
        simp only [unitsLoopN] at h
        split at h
        · cases h
        · split at h
          · cases h
          · rename_i v hassign
            exact transClean_comp rank values v w (ihA _ _ _ _ hassign)
              (fun t => (nvMono rank fuel).2.2.1 _ _ _ _ h t) (ihU _ _ _ _ h)
        · exact ihU _ _ _ _ h
    · intro values s d w h
      simp only [assignN] at h
      exact ihS _ _ _ _ h
    · intro values s L w h
      match L, h with
      | [], h =>
        simp only [elimSeqN, Option.some.injEq] at h
        subst h
        intro t e hw hval
        exact absurd hw hval
      | d2 :: rest, h =>
        simp only [elimSeqN] at h
        split at h
        · cases h
        · rename_i v helimv
          exact transClean_comp rank values v w (ihE _ _ _ _ helimv)
            (fun t => (nvMono rank fuel).2.2.2.2 _ _ _ _ h t) (ihS _ _ _ _ h)

/-- The invariant of the parsing pass: no square is out of candidates,
every candidate list draws from the digits, and a solved square's digit is
absent from all its peers. -/
def NInv (rank : Nat) (u : NState) : Prop :=
  (∀ t, u t ≠ []) ∧ (∀ t, List.Sublist (u t) (digitsN rank)) ∧
  (∀ t e, u t = [e] → ∀ p ∈ peersN rank t, e ∉ u p)

lemma assignN_preserves_NInv (rank fuel : Nat) (values w : NState) (s d : Nat)
    (hinv : NInv rank values) (h : assignN rank fuel values s d = some w) :
    NInv rank w := by
  obtain ⟨hne, hsub, hcons⟩ := hinv
  refine ⟨?_, ?_, ?_⟩
  · exact (nvNoEmpty rank fuel).2.2.2.1 _ _ _ _ hne h
  · intro t
    exact ((nvMono rank fuel).2.2.2.1 _ _ _ _ h t).trans (hsub t)
  · intro t e hw p hp hm
    by_cases hv : values t = [e]
    · exact hcons t e hv p hp (((nvMono rank fuel).2.2.2.1 _ _ _ _ h p).subset hm)
    · exact (nvTrans rank fuel).2.2.2.1 _ _ _ _ h t e hw hv p hp hm

lemma sublist_singleton_eq (l : List Nat) (d : Nat) (hsub : List.Sublist l [d])
    (hne : l ≠ []) : l = [d] := by
  have hl : l = [] ∨ l = [d] := by simpa using List.sublist_singleton.1 hsub
  rcases hl with h | h
  · exact absurd h hne
  · exact h

/-- A successful `assign(values, s, d)` pins square `s` to `[d]`, and `d`
was among the candidates of `s` beforehand. -/
lemma assignN_success (rank fuel : Nat) (values w : NState) (s d : Nat)
    (hne : ∀ t, values t ≠ []) (hnd : (values s).Nodup)
    (h : assignN rank fuel values s d = some w) :
    w s = [d] ∧ d ∈ values s := by
  cases fuel with
  | zero => simp [assignN] at h
  | succ fuel =>
    simp only [assignN] at h
    have hpost := (nvPost rank fuel).2.2 _ _ _ _ h
    have hmono := (nvMono rank fuel).2.2.2.2 _ _ _ _ h s
    have hner : w s ≠ [] := (nvNoEmpty rank fuel).2.2.2.2 _ _ _ _ hne h s
    have hall : ∀ x ∈ w s, x = d := by
      intro x hx
      by_contra hxd
      exact hpost x (List.mem_filter.2 ⟨hmono.subset hx, by simpa using hxd⟩) hx
    have hdmem : d ∈ w s := by
      cases hws : w s with
      | nil => exact absurd hws hner
      | cons a l =>
        have ha : a = d := hall a (by rw [hws]; exact List.mem_cons_self a l)
        rw [← ha]
        exact List.mem_cons_self a l
    refine ⟨?_, hmono.subset hdmem⟩
    have hndw : (w s).Nodup := hmono.nodup hnd
    cases hws : w s with
    | nil => exact absurd hws hner
    | cons a l =>
      have ha : a = d := hall a (by rw [hws]; exact List.mem_cons_self a l)
      cases l with
      | nil => rw [ha]
      | cons b l2 =>
        exfalso
        have hb : b = d :=
          hall b (by rw [hws]; exact List.mem_cons_of_mem a (List.mem_cons_self b l2))
        rw [hws, ha, hb] at hndw
        simp at hndw

/-- Assigning `d` to a peer of a square already pinned to `[d]` fails for
every fuel bound: the contradiction is detected inside `assign`. -/
lemma assign_dup_fails (rank fuel : Nat) (u : NState) (s1 s2 d : Nat)
    (hinv : NInv rank u) (hs1 : u s1 = [d]) (hp : s2 ∈ peersN rank s1) :
    assignN rank fuel u s2 d = none := by
  cases hres : assignN rank fuel u s2 d with
  | none => rfl
  | some w =>
    exfalso
    have hnd : (u s2).Nodup := (hinv.2.1 s2).nodup (nodup_digitsN rank)
    obtain ⟨-, hdm⟩ := assignN_success rank fuel u w s2 d hinv.1 hnd hres
    exact hinv.2.2 s1 d hs1 s2 hp hdm

/-- Once a square `s1` is pinned to the duplicated digit, the remaining
assignment loop of `parse_grid` fails as soon as it reaches the peer `s2`
carrying the same digit. -/
lemma parseListN_none_of_mem (rank fuel : Nat) (vals : Vals) (s1 s2 d : Nat)
    (hdig2 : vals (sqRow rank s2) (sqCol rank s2) = d)
    (hlo : 1 ≤ d) (hhi : d ≤ side rank) (hp : s2 ∈ peersN rank s1) :
    ∀ (L : List Nat) (u : NState), NInv rank u → u s1 = [d] → s2 ∈ L →
      parseListN rank fuel vals L u = none := by
  intro L
  induction L with
  | nil =>
    intro u _ _ hmem
    exact absurd hmem (List.not_mem_nil s2)
  | cons t rest ih =>
    intro u hinv hs1 hmem
    simp only [parseListN]
    by_cases hts : t = s2
    · subst hts
      rw [if_pos (by rw [hdig2]; exact ⟨hlo, hhi⟩)]
      rw [hdig2]
      rw [assign_dup_fails rank fuel u s1 t d hinv hs1 hp]
    · have hmem2 : s2 ∈ rest := by
        rcases List.mem_cons.1 hmem with h2 | h2
        · exact absurd h2.symm hts
        · exact h2
      by_cases hrange : 1 ≤ vals (sqRow rank t) (sqCol rank t) ∧
          vals (sqRow rank t) (sqCol rank t) ≤ side rank
      · rw [if_pos hrange]
        cases hres : assignN rank fuel u t (vals (sqRow rank t) (sqCol rank t)) with
        | none => rfl
        | some v =>
          have hinv2 := assignN_preserves_NInv rank fuel u v t
            (vals (sqRow rank t) (sqCol rank t)) hinv hres
          have hsub : List.Sublist (v s1) (u s1) :=
            (nvMono rank fuel).2.2.2.1 _ _ _ _ hres s1
          rw [hs1] at hsub
          exact ih v hinv2 (sublist_singleton_eq _ _ hsub (hinv2.1 s1)) hmem2
      · rw [if_neg hrange]
        exact ih u hinv hs1 hmem2

/-- The full assignment loop fails on a square list that presents `s1` and
later its peer `s2` when both grid cells carry the same digit `d`. -/
lemma parseListN_dup_none (rank fuel : Nat) (vals : Vals) (s1 s2 d : Nat)
    (hdig1 : vals (sqRow rank s1) (sqCol rank s1) = d)
    (hdig2 : vals (sqRow rank s2) (sqCol rank s2) = d)
    (hlo : 1 ≤ d) (hhi : d ≤ side rank) (hp : s2 ∈ peersN rank s1) :
    ∀ (L1 L2 : List Nat) (u : NState), NInv rank u → s2 ∈ L2 →
      parseListN rank fuel vals (L1 ++ s1 :: L2) u = none := by
  intro L1
  induction L1 with
  | nil =>
    intro L2 u hinv hmem
    rw [List.nil_append]
    simp only [parseListN]
    rw [if_pos (by rw [hdig1]; exact ⟨hlo, hhi⟩)]
    rw [hdig1]
    cases hres : assignN rank fuel u s1 d with
    | none => rfl
    | some u1 =>
      have hinv1 := assignN_preserves_NInv rank fuel u u1 s1 d hinv hres
      have hnd : (u s1).Nodup := (hinv.2.1 s1).nodup (nodup_digitsN rank)
      obtain ⟨hu1, -⟩ := assignN_success rank fuel u u1 s1 d hinv.1 hnd hres
      exact parseListN_none_of_mem rank fuel vals s1 s2 d hdig2 hlo hhi hp L2 u1 hinv1 hu1 hmem
  | cons t L1 ih =>
    intro L2 u hinv hmem
    rw [List.cons_append]
    simp only [parseListN]
    by_cases hrange : 1 ≤ vals (sqRow rank t) (sqCol rank t) ∧
        vals (sqRow rank t) (sqCol rank t) ≤ side rank
    · rw [if_pos hrange]
      cases hres : assignN rank fuel u t (vals (sqRow rank t) (sqCol rank t)) with
      | none => rfl
      | some v =>
        exact ih L2 v (assignN_preserves_NInv rank fuel u v t _ hinv hres) hmem
    · rw [if_neg hrange]
      exact ih L2 u hinv hmem

/-- `parse_grid` on a grid with the same in-range digit in two peer cells
(cells sharing a row, a column or a tile) fails for every fuel bound. -/
lemma parseGridN_dup_none (rank : Nat) (vals : Vals) (r1 c1 r2 c2 : Nat)
    (hrank : 2 ≤ rank) (hr1 : r1 < side rank) (hc1 : c1 < side rank)
    (hr2 : r2 < side rank) (hc2 : c2 < side rank)
    (hlt : r1 * side rank + c1 < r2 * side rank + c2)
    (hsame : sameUnitB rank (r1, c1) (r2, c2) = true)
    (heq : vals r1 c1 = vals r2 c2)
    (hlo : 1 ≤ vals r1 c1) (hhi : vals r1 c1 ≤ side rank) (fuel : Nat) :
    parseGridN rank fuel vals = none := by
  have hside4 : 4 ≤ side rank := by
    have h22 := Nat.mul_le_mul hrank hrank
    simpa [side] using h22
  have hrow1 : sqRow rank (r1 * side rank + c1) = r1 := by
    unfold sqRow
    exact base_div' hc1
  have hcol1 : sqCol rank (r1 * side rank + c1) = c1 := by
    unfold sqCol
    exact base_mod' hc1
  have hrow2 : sqRow rank (r2 * side rank + c2) = r2 := by
    unfold sqRow
    exact base_div' hc2
  have hcol2 : sqCol rank (r2 * side rank + c2) = c2 := by
    unfold sqCol
    exact base_mod' hc2
  have hs1lt : r1 * side rank + c1 < size rank := by
    have h1 : side rank * r1 + c1 < size rank := cell_lt hr1 hc1
    rw [Nat.mul_comm r1 (side rank)]
    exact h1
  have hs2lt : r2 * side rank + c2 < size rank := by
    have h1 : side rank * r2 + c2 < size rank := cell_lt hr2 hc2
    rw [Nat.mul_comm r2 (side rank)]
    exact h1
  have hne12 : r1 * side rank + c1 ≠ r2 * side rank + c2 := Nat.ne_of_lt hlt
  have hp12 : (r2 * side rank + c2) ∈ peersN rank (r1 * side rank + c1) := by
    unfold peersN
    refine List.mem_filter.2 ⟨List.mem_range.2 hs2lt, ?_⟩
    simp only [Bool.and_eq_true, bne_iff_ne]
    refine ⟨Ne.symm hne12, ?_⟩
    rw [hrow1, hcol1, hrow2, hcol2]
    exact hsame
  have hdig1 : vals (sqRow rank (r1 * side rank + c1)) (sqCol rank (r1 * side rank + c1)) =
      vals r1 c1 := by rw [hrow1, hcol1]
  have hdig2 : vals (sqRow rank (r2 * side rank + c2)) (sqCol rank (r2 * side rank + c2)) =
      vals r1 c1 := by
    rw [hrow2, hcol2]
    exact heq.symm
  have hinv0 : NInv rank (fun _ => digitsN rank) := by
    refine ⟨fun t => ?_, fun t => List.Sublist.refl _, fun t e he p hp hmem => ?_⟩
    · show digitsN rank ≠ []
      intro hnil
      have hlen := congrArg List.length hnil
      rw [length_digitsN] at hlen
      simp at hlen
      omega
    · have he2 : digitsN rank = [e] := he
      have hlen := congrArg List.length he2
      rw [length_digitsN] at hlen
      simp at hlen
      omega
  have hsplit : List.range (size rank) =
      List.range' 0 (r1 * side rank + c1) ++ (r1 * side rank + c1) ::
        List.range' (r1 * side rank + c1 + 1)
          (size rank - (r1 * side rank + c1) - 1) := by
    rw [List.range_eq_range']
    have h1 : List.range' 0 (r1 * side rank + c1) ++
        List.range' (r1 * side rank + c1) (size rank - (r1 * side rank + c1)) =
        List.range' 0 (size rank) := by
      have happ := List.range'_append 0 (r1 * side rank + c1)
        (size rank - (r1 * side rank + c1)) 1
      simp only [Nat.zero_add, Nat.one_mul] at happ
      rw [happ]
      congr 1
      omega
    rw [← h1]
    congr 1
    obtain ⟨k, hk⟩ : ∃ k, size rank - (r1 * side rank + c1) = k + 1 :=
      ⟨size rank - (r1 * side rank + c1) - 1, by omega⟩
    rw [hk]
    simp [List.range'_succ]
  rw [parseGridN, hsplit]
  exact parseListN_dup_none rank fuel vals (r1 * side rank + c1) (r2 * side rank + c2)
    (vals r1 c1) hdig1 hdig2 hlo hhi hp12 _ _ _ hinv0
    (by rw [List.mem_range'_1]; omega)

/-- `parse_grid` fails, for every fuel bound, on any grid with the same
in-range digit in two distinct peer cells, whichever of the two cells the
square order meets first. -/
lemma parseGridN_dup_none_of_peers (rank : Nat) (vals : Vals) (r1 c1 r2 c2 : Nat)
    (hrank : 2 ≤ rank) (hr1 : r1 < side rank) (hc1 : c1 < side rank)
    (hr2 : r2 < side rank) (hc2 : c2 < side rank)
    (hne : ¬(r1 = r2 ∧ c1 = c2))
    (hsame : sameUnitB rank (r1, c1) (r2, c2) = true)
    (heq : vals r1 c1 = vals r2 c2)
    (hlo : 1 ≤ vals r1 c1) (hhi : vals r1 c1 ≤ side rank) (fuel : Nat) :
    parseGridN rank fuel vals = none := by
  rcases Nat.lt_trichotomy (r1 * side rank + c1) (r2 * side rank + c2) with hlt | heqs | hgt
  · exact parseGridN_dup_none rank vals r1 c1 r2 c2 hrank hr1 hc1 hr2 hc2 hlt
      hsame heq hlo hhi fuel
  · exfalso
    apply hne
    constructor
    · rw [← @base_div' (side rank) r1 c1 hc1, heqs, @base_div' (side rank) r2 c2 hc2]
    · rw [← @base_mod' (side rank) r1 c1 hc1, heqs, @base_mod' (side rank) r2 c2 hc2]
  · have hsame2 : sameUnitB rank (r2, c2) (r1, c1) = true :=
      (sameUnitB_symm rank (r1, c1) (r2, c2)).2 hsame
    exact parseGridN_dup_none rank vals r2 c2 r1 c1 hrank hr2 hc2 hr1 hc1 hgt
      hsame2 heq.symm (heq ▸ hlo) (heq ▸ hhi) fuel

end Norvig

/-- Flattening a square array of values, row by row, lists the entries in
row-major index order. -/
lemma flatten_map_range {α : Type} (g : Nat → Nat → α) (n : Nat) :
    ∀ m, ((List.range m).map (fun i => (List.range n).map (fun j => g i j))).flatten =
      (List.range (m * n)).map (fun k => g (k / n) (k % n)) := by
  intro m
  induction m with
  | zero => simp
  | succ m ih =>
    rw [List.range_succ, List.map_append, List.flatten_append, ih]
    have h1 : (m + 1) * n = m * n + n := by ring
    rw [h1, List.range_add, List.map_append]
    congr 1
    simp only [List.map_cons, List.map_nil, List.flatten_cons, List.flatten_nil,
      List.append_nil, List.map_map]
    apply List.map_congr_left
    intro j hj
    have hjn : j < n := List.mem_range.1 hj
    simp only [Function.comp]
    rw [base_div' hjn, base_mod' hjn]

/-- A list mapped over an index range with two distinct indices holding the
same value has a repeat. -/
lemma map_range_not_nodup (f : Nat → Nat) (n a b : Nat) (ha : a < n) (hb : b < n)
    (hab : a ≠ b) (hfab : f a = f b)
    (hnd : ((List.range n).map f).Nodup) : False := by
  have hlen : ((List.range n).map f).length = n := by simp
  have hal : a < ((List.range n).map f).length := by rw [hlen]; exact ha
  have hbl : b < ((List.range n).map f).length := by rw [hlen]; exact hb
  have hg1 : ((List.range n).map f).get ⟨a, hal⟩ = f a := by simp
  have hg2 : ((List.range n).map f).get ⟨b, hbl⟩ = f b := by simp
  have hij : (⟨a, hal⟩ : Fin ((List.range n).map f).length) = ⟨b, hbl⟩ :=
    (List.Nodup.get_inj_iff hnd).1 (by rw [hg1, hg2]; exact hfab)
  exact hab (congrArg Fin.val hij)

/-- The tile value list, re-expressed as one map over the in-tile index. -/
lemma tileVals_eq_map (rank : Nat) (vals : Vals) (t : Nat) :
    tileVals rank vals t = (List.range (side rank)).map
      (fun k => vals (rank * (t / rank) + k / rank) (rank * (t % rank) + k % rank)) := by
  unfold tileVals
  exact flatten_map_range
    (fun i j => vals (rank * (t / rank) + i) (rank * (t % rank) + j)) rank rank

/-- Any grid holding the same value in two distinct peer cells — cells
sharing a row, a column or a tile — fails the `is_solution` check of
`Sudoku/Solver.py`: the shared unit cannot be duplicate-free. -/
lemma duplicate_not_solution (rank : Nat) (vals : Vals) (r1 c1 r2 c2 : Nat)
    (hr1 : r1 < side rank) (hc1 : c1 < side rank)
    (hr2 : r2 < side rank) (hc2 : c2 < side rank)
    (hne : ¬(r1 = r2 ∧ c1 = c2))
    (hsame : sameUnitB rank (r1, c1) (r2, c2) = true)
    (heq : vals r1 c1 = vals r2 c2) :
    isSolutionB rank vals = false := by
  rcases Nat.eq_zero_or_pos rank with hrank0 | hrankpos
  · subst hrank0
    simp [side] at hr1
  cases hres : isSolutionB rank vals with
  | false => rfl
  | true =>
    exfalso
    obtain ⟨htiles, hrows, hcols⟩ := (isSolutionB_true_iff rank vals).1 hres
    simp only [sameUnitB, Bool.or_eq_true, beq_iff_eq] at hsame
    rcases hsame with (hrr | hcc) | htt
    · subst hrr
      have hcne : c1 ≠ c2 := fun h => hne ⟨rfl, h⟩
      have hperm := (eqValidB_true_iff rank _ (length_rowVals rank vals r1)).1 (hrows r1 hr1)
      have hnd : (rowVals rank vals r1).Nodup := hperm.nodup_iff.2 (nodup_validList rank)
      exact map_range_not_nodup (fun c => vals r1 c) (side rank) c1 c2 hc1 hc2 hcne heq hnd
    · subst hcc
      have hrne : r1 ≠ r2 := fun h => hne ⟨h, rfl⟩
      have hperm := (eqValidB_true_iff rank _ (length_colVals rank vals c1)).1 (hcols c1 hc1)
      have hnd : (colVals rank vals c1).Nodup := hperm.nodup_iff.2 (nodup_validList rank)
      exact map_range_not_nodup (fun r => vals r c1) (side rank) r1 r2 hr1 hr2 hrne heq hnd
    · have hq1r : r1 / rank < rank := by
        apply (Nat.div_lt_iff_lt_mul hrankpos).2
        simpa [side] using hr1
      have hq1c : c1 / rank < rank := by
        apply (Nat.div_lt_iff_lt_mul hrankpos).2
        simpa [side] using hc1
      have hq2r : r2 / rank < rank := by
        apply (Nat.div_lt_iff_lt_mul hrankpos).2
        simpa [side] using hr2
      have hq2c : c2 / rank < rank := by
        apply (Nat.div_lt_iff_lt_mul hrankpos).2
        simpa [side] using hc2
      have htlt : tileOf rank r1 c1 < side rank := cell_lt hq1r hq1c
      have ht_div1 : tileOf rank r1 c1 / rank = r1 / rank := base_div hq1c
      have ht_mod1 : tileOf rank r1 c1 % rank = c1 / rank := base_mod hq1c
      have ht_div2 : tileOf rank r1 c1 / rank = r2 / rank := by
        rw [htt]
        exact base_div hq2c
      have ht_mod2 : tileOf rank r1 c1 % rank = c2 / rank := by
        rw [htt]
        exact base_mod hq2c
      have hm1r : r1 % rank < rank := Nat.mod_lt r1 hrankpos
      have hm1c : c1 % rank < rank := Nat.mod_lt c1 hrankpos
      have hm2r : r2 % rank < rank := Nat.mod_lt r2 hrankpos
      have hm2c : c2 % rank < rank := Nat.mod_lt c2 hrankpos
      have hk1 : (r1 % rank) * rank + c1 % rank < side rank := by
        have h := cell_lt hm1r hm1c
        rw [Nat.mul_comm rank (r1 % rank)] at h
        exact h
      have hk2 : (r2 % rank) * rank + c2 % rank < side rank := by
        have h := cell_lt hm2r hm2c
        rw [Nat.mul_comm rank (r2 % rank)] at h
        exact h
      have hdivk1 : ((r1 % rank) * rank + c1 % rank) / rank = r1 % rank := base_div' hm1c
      have hmodk1 : ((r1 % rank) * rank + c1 % rank) % rank = c1 % rank := base_mod' hm1c
      have hdivk2 : ((r2 % rank) * rank + c2 % rank) / rank = r2 % rank := base_div' hm2c
      have hmodk2 : ((r2 % rank) * rank + c2 % rank) % rank = c2 % rank := base_mod' hm2c
      have hkne : (r1 % rank) * rank + c1 % rank ≠ (r2 % rank) * rank + c2 % rank := by
        intro hk
        have e1 : r1 % rank = r2 % rank := by rw [← hdivk1, hk, hdivk2]
        have e2 : c1 % rank = c2 % rank := by rw [← hmodk1, hk, hmodk2]
        have e3 : r1 / rank = r2 / rank := by rw [← ht_div1, ht_div2]
        have e4 : c1 / rank = c2 / rank := by rw [← ht_mod1, ht_mod2]
        apply hne
        constructor
        · conv_lhs => rw [← Nat.div_add_mod r1 rank]
          conv_rhs => rw [← Nat.div_add_mod r2 rank]
          rw [e3, e1]
        · conv_lhs => rw [← Nat.div_add_mod c1 rank]
          conv_rhs => rw [← Nat.div_add_mod c2 rank]
          rw [e4, e2]
      have hv1 : vals (rank * (tileOf rank r1 c1 / rank) + r1 % rank)
          (rank * (tileOf rank r1 c1 % rank) + c1 % rank) = vals r1 c1 := by
        rw [ht_div1, ht_mod1, Nat.div_add_mod, Nat.div_add_mod]
      have hv2 : vals (rank * (tileOf rank r1 c1 / rank) + r2 % rank)
          (rank * (tileOf rank r1 c1 % rank) + c2 % rank) = vals r2 c2 := by
        rw [ht_div2, ht_mod2, Nat.div_add_mod, Nat.div_add_mod]
      have hperm := (eqValidB_true_iff rank _
        (length_tileVals rank vals (tileOf rank r1 c1))).1
        (htiles (tileOf rank r1 c1) htlt)
      have hnd : (tileVals rank vals (tileOf rank r1 c1)).Nodup :=
        hperm.nodup_iff.2 (nodup_validList rank)
      rw [tileVals_eq_map] at hnd
      refine map_range_not_nodup
        (fun k => vals (rank * (tileOf rank r1 c1 / rank) + k / rank)
          (rank * (tileOf rank r1 c1 % rank) + k % rank))
        (side rank) _ _ hk1 hk2 hkne ?_ hnd
      show vals (rank * (tileOf rank r1 c1 / rank) + (r1 % rank * rank + c1 % rank) / rank)
          (rank * (tileOf rank r1 c1 % rank) + (r1 % rank * rank + c1 % rank) % rank) =
        vals (rank * (tileOf rank r1 c1 / rank) + (r2 % rank * rank + c2 % rank) / rank)
          (rank * (tileOf rank r1 c1 % rank) + (r2 % rank * rank + c2 % rank) % rank)
      rw [hdivk1, hmodk1, hdivk2, hmodk2, hv1, hv2]
      exact heq

/-- A `some true` run of the `Solver.py` loop produces a grid passing
`is_solution` that agrees with the input off the empty-cell list (the loop
writes only at positions drawn from `empties`). -/
lemma canSolveGo_some_true (rank : Nat) (empties : List (Nat × Nat)) :
    ∀ (fuel : Nat) (vals : Vals) (index : Nat),
      SolverPy.canSolveGo rank empties fuel vals index = some true →
      ∃ vals2, isSolutionB rank vals2 = true ∧
        ∀ r c, (r, c) ∉ empties → vals2 r c = vals r c := by
  intro fuel
  induction fuel with
  | zero => intro vals index h; cases h
  | succ fuel ih =>
    intro vals index h
    rw [SolverPy.canSolveGo] at h
    by_cases hidx : index < empties.length
    · rw [dif_pos hidx] at h
      simp only [] at h
      split at h
      · split at h
        · cases h
        · exact ih vals (index - 1) h
      · rename_i u rest huntried
        obtain ⟨vals2, hsol, hagree⟩ := ih _ (index + 1) h
        refine ⟨vals2, hsol, fun r c hmem => ?_⟩
        rw [hagree r c hmem]
        simp only [writeAt]
        by_cases hrc : r = (empties.get ⟨index, hidx⟩).1 ∧ c = (empties.get ⟨index, hidx⟩).2
        · exfalso
          apply hmem
          obtain ⟨h1, h2⟩ := hrc
          rw [h1, h2]
          exact List.mem_iff_get.2 ⟨⟨index, hidx⟩, rfl⟩
        · rw [if_neg hrc]
    · rw [dif_neg hidx] at h
      exact ⟨vals, Option.some.inj h, fun r c _ => rfl⟩

/-- The brute-force `can_solve` of `Sudoku/Solver.py` answers `false` on a
grid with the same nonzero value in two peer cells: every terminal state of
the loop still carries the duplicate, so `is_solution` can never pass. -/
lemma solverPy_duplicate_false (rank : Nat) (vals : Vals) (r1 c1 r2 c2 : Nat)
    (hr1 : r1 < side rank) (hc1 : c1 < side rank)
    (hr2 : r2 < side rank) (hc2 : c2 < side rank)
    (hne : ¬(r1 = r2 ∧ c1 = c2))
    (hsame : sameUnitB rank (r1, c1) (r2, c2) = true)
    (heq : vals r1 c1 = vals r2 c2) (hnz : vals r1 c1 ≠ 0) :
    SolverPy.canSolve rank vals = false := by
  unfold SolverPy.canSolve
  cases hres : SolverPy.canSolveGo rank (emptiesOf rank vals)
      (SolverPy.solverFuel rank vals) vals 0 with
  | none => rfl
  | some b =>
    cases b with
    | false => rfl
    | true =>
      exfalso
      obtain ⟨vals2, hsol, hagree⟩ :=
        canSolveGo_some_true rank (emptiesOf rank vals) _ vals 0 hres
      have hm1 : (r1, c1) ∉ emptiesOf rank vals := by
        rw [mem_emptiesOf]
        rintro ⟨-, h0⟩
        exact hnz h0
      have hm2 : (r2, c2) ∉ emptiesOf rank vals := by
        rw [mem_emptiesOf]
        rintro ⟨-, h0⟩
        exact hnz (heq.trans h0)
      have heq2 : vals2 r1 c1 = vals2 r2 c2 := by
        rw [hagree r1 c1 hm1, hagree r2 c2 hm2]
        exact heq
      have hf := duplicate_not_solution rank vals2 r1 c1 r2 c2 hr1 hc1 hr2 hc2
        hne hsame heq2
      rw [hf] at hsol
      cases hsol

/-- C6: on a well-formed grid carrying the same nonzero (in-range) value in
two distinct peer cells — two cells of one row, one column or one tile —
both solvers reject by ordinary return values: the brute-force `can_solve`
of `Sudoku/Solver.py` returns `false`, and in `norvig_solver.py`
`parse_grid` returns the failure marker for every fuel bound — the
contradiction is caught while assigning the prefilled values, before
`search` ever branches — so its `can_solve` returns `false` too. -/
theorem duplicate_in_peers_rejected (rank : Nat) (vals : Vals) (r1 c1 r2 c2 : Nat)
    (hrank : 2 ≤ rank) (hr1 : r1 < side rank) (hc1 : c1 < side rank)
    (hr2 : r2 < side rank) (hc2 : c2 < side rank)
    (hne : ¬(r1 = r2 ∧ c1 = c2))
    (hsame : sameUnitB rank (r1, c1) (r2, c2) = true)
    (heq : vals r1 c1 = vals r2 c2)
    (hlo : 1 ≤ vals r1 c1) (hhi : vals r1 c1 ≤ side rank) :
    SolverPy.canSolve rank vals = false ∧
    (∀ fuel, Norvig.parseGridN rank fuel vals = none) ∧
    (∀ fuel, Norvig.canSolveN rank fuel vals = false) := by
  have hparse : ∀ fuel, Norvig.parseGridN rank fuel vals = none := fun fuel =>
    Norvig.parseGridN_dup_none_of_peers rank vals r1 c1 r2 c2 hrank hr1 hc1 hr2 hc2
      hne hsame heq hlo hhi fuel
  refine ⟨?_, hparse, ?_⟩
  · exact solverPy_duplicate_false rank vals r1 c1 r2 c2 hr1 hc1 hr2 hc2 hne hsame heq
      (by omega)
  · intro fuel
    unfold Norvig.canSolveN
    rw [hparse fuel]

/-- Witness for C6: the rank-2 grid `dup4` with two 3s in the peer cells
(0, 0) and (0, 1) is rejected by both solvers. -/
theorem duplicate_in_peers_rejected_witness :
    SolverPy.canSolve 2 (ofList 2 dup4) = false ∧
    Norvig.parseGridN 2 100 (ofList 2 dup4) = none ∧
    Norvig.canSolveN 2 100 (ofList 2 dup4) = false := by
  obtain ⟨h1, h2, h3⟩ := duplicate_in_peers_rejected 2 (ofList 2 dup4) 0 0 0 1
    (by decide) (by decide) (by decide) (by decide) (by decide) (by decide)
    (by decide) (by decide) (by decide) (by decide)
  exact ⟨h1, h2 100, h3 100⟩

/-! ## C5: the two `is_solution` variants -/

/-- C5 (amended): `Solver.is_solution` of `Sudoku/Solver.py` returns true
iff every row, column and tile of the current grid values is a permutation
of `1..side` (each value exactly once), hence false whenever some in-range
cell is empty; it is a direct check of the values with no search.  The
`norvig_solver.py` `is_solution`, in contrast, never reads the grid's
values: it tests the constraint-propagated candidate state that
`parse_grid` built at construction, and when that parse failed — as on any
grid with an in-range value duplicated across two peer cells — it raises
`KeyError` (the `none` result) instead of returning false, no matter how
many cells of the grid are empty. -/
theorem is_solution_characterization (rank : Nat) (vals : Vals) :
    ((isSolutionB rank vals = true ↔
      (∀ r < side rank, (rowVals rank vals r).Perm (validList rank)) ∧
      (∀ c < side rank, (colVals rank vals c).Perm (validList rank)) ∧
      (∀ t < side rank, (tileVals rank vals t).Perm (validList rank))) ∧
    (∀ p : Nat × Nat, p.1 < side rank → p.2 < side rank → vals p.1 p.2 = 0 →
      isSolutionB rank vals = false)) ∧
    (∀ r1 c1 r2 c2, 2 ≤ rank → r1 < side rank → c1 < side rank →
      r2 < side rank → c2 < side rank → ¬(r1 = r2 ∧ c1 = c2) →
      sameUnitB rank (r1, c1) (r2, c2) = true → vals r1 c1 = vals r2 c2 →
      1 ≤ vals r1 c1 → vals r1 c1 ≤ side rank →
      ∀ fuel, Norvig.isSolutionN rank fuel vals = none) := by
  constructor
  · refine ⟨isSolutionB_perm_iff rank vals, fun p hp1 hp2 hv => ?_⟩
    by_contra hne
    have htrue : isSolutionB rank vals = true := by
      cases h : isSolutionB rank vals
      · exact absurd h hne
      · rfl
    have hrow := ((isSolutionB_perm_iff rank vals).1 htrue).1 p.1 hp1
    have hmem : (0 : Nat) ∈ rowVals rank vals p.1 := by
      rw [rowVals]
      exact List.mem_map.2 ⟨p.2, List.mem_range.2 hp2, hv⟩
    have := hrow.subset hmem
    rw [validList, List.mem_range'_1] at this
    omega
  · intro r1 c1 r2 c2 hrank hr1 hc1 hr2 hc2 hne hsame heq hlo hhi fuel
    unfold Norvig.isSolutionN
    rw [Norvig.parseGridN_dup_none_of_peers rank vals r1 c1 r2 c2 hrank hr1 hc1 hr2 hc2
      hne hsame heq hlo hhi fuel]

/-- Counterexample to C5 as frozen, at a concrete input: the grid `dup4`
still has empty (0-valued) cells — (0, 2) among them — so the claim says
`is_solution` returns false on it; but the `norvig_solver.py` `is_solution`
reads `self.values`, which the failed `parse_grid` left as `{}`, and the
first `self.values[s]` lookup raises `KeyError` (the `none` result): no
boolean is returned at all, for every fuel bound. -/
theorem is_solution_characterization_counterexample :
    (∀ fuel, Norvig.isSolutionN 2 fuel (ofList 2 dup4) = none) ∧
    ofList 2 dup4 0 2 = 0 ∧ 0 < side 2 ∧ 2 < side 2 := by
  refine ⟨fun fuel => ?_, by decide, by decide, by decide⟩
  unfold Norvig.isSolutionN
  rw [Norvig.parseGridN_dup_none_of_peers 2 (ofList 2 dup4) 0 0 0 1 (by decide)
    (by decide) (by decide) (by decide) (by decide) (by decide) (by decide)
    (by decide) (by decide) (by decide) fuel]

end Sudoku
